import Mathlib

/-!
# Write-once file system (`OS_File_System.c`): directory / FAT management

A shallow embedding of the C source.  The two global tables
`RAM_Directory[256]` and `RAM_FAT[256]` of `uint8_t` become the two fields of
`FS`.  Every `uint8_t` value is a natural number read modulo `256`; every
index into a table is an 8-bit variable in the source and is reduced modulo
`256` as well.  Loops whose termination depends on the table contents
(`while (RAM_FAT[current] != 0xff)`, the open-ended `for (i = 0;; i++)`) take
a fuel argument and return `none` when the fuel runs out; loops with a fixed
trip count are total.
-/

namespace OSFS

/-! ## Data model -/

/-- The metadata held in RAM: `RAM_Directory` and `RAM_FAT`. -/
structure FS where
  RAM_Directory : Nat → Nat
  RAM_FAT : Nat → Nat

/-- Read of `RAM_Directory[i]` for an 8-bit index, giving an 8-bit value. -/
def dir (s : FS) (i : Nat) : Nat := s.RAM_Directory (i % 256) % 256

/-- Read of `RAM_FAT[i]` for an 8-bit index, giving an 8-bit value. -/
def fat (s : FS) (i : Nat) : Nat := s.RAM_FAT (i % 256) % 256

/-- Store `RAM_Directory[i] = v`. -/
def setDir (s : FS) (i v : Nat) : FS :=
  { s with RAM_Directory := fun k => if k = i % 256 then v % 256 else s.RAM_Directory k }

/-- Store `RAM_FAT[i] = v`. -/
def setFat (s : FS) (i v : Nat) : FS :=
  { s with RAM_FAT := fun k => if k = i % 256 then v % 256 else s.RAM_FAT k }

/-- The constant `Disk_Start_Address = 0x20000`. -/
def Disk_Start_Address : Nat := 0x20000

/-! ## `OS_FS_Init` -/

/-- State after the first `i` rounds of the loop of `OS_FS_Init`. -/
def OS_FS_Init_loop (s : FS) : Nat → FS
  | 0 => s
  | i + 1 => setFat (setDir (OS_FS_Init_loop s i) i 255) i 255

/-- The function `OS_FS_Init`: `for (i = 0; i < 256; i++)` stores 255 in both tables. -/
def OS_FS_Init (s : FS) : FS := OS_FS_Init_loop s 256

/-! ## Allocator -/

/-- The loop `while (RAM_FAT[current] != 0xff) current = RAM_FAT[current];`
of `last_sector`, returning the final `current`. -/
def last_sector_loop : Nat → FS → Nat → Option Nat
  | 0, _, _ => none
  | fuel + 1, s, current =>
    if fat s current ≠ 0xff then last_sector_loop fuel s (fat s current)
    else some current

/-- The function `last_sector(start)`. -/
def last_sector (fuel : Nat) (s : FS) (start : Nat) : Option Nat :=
  if start % 256 = 0xff then some 0xff
  else if dir s start = 0xff then some 0xff
  else last_sector_loop fuel s (dir s start)

/-- The loop `for (uint8_t i = 0;; i++)` of `find_free_sector`; `n` is the
fuel handed to each call of `last_sector`. -/
def find_free_sector_loop (n : Nat) : Nat → FS → Nat → Nat → Option Nat
  | 0, _, _, _ => none
  | fuel + 1, s, i, fs =>
    match last_sector n s (dir s i) with
    | none => none
    | some ls =>
      if ls = 255 then some ((fs + 1) % 256)
      else find_free_sector_loop n fuel s ((i + 1) % 256) (if ls > fs then ls else fs)

/-- The function `find_free_sector()`; `uint8_t fs = -1` is `255`. -/
def find_free_sector (fuel : Nat) (s : FS) : Option Nat :=
  find_free_sector_loop fuel fuel s 0 (((-1 : Int) % 256).toNat)

/-- The loop `m = RAM_FAT[i]; while (m != 255) { i = m; m = RAM_FAT[i]; }`
of `append_fat`, returning the final `i`. -/
def append_fat_loop : Nat → FS → Nat → Nat → Option Nat
  | 0, _, _, _ => none
  | fuel + 1, s, i, m =>
    if m ≠ 255 then append_fat_loop fuel s m (fat s m) else some i

/-- The function `append_fat(num, n)`. -/
def append_fat (fuel : Nat) (s : FS) (num n : Nat) : Option FS :=
  if dir s num = 255 then some (setDir s num n)
  else
    match append_fat_loop fuel s (dir s num) (fat s (dir s num)) with
    | none => none
    | some i => some (setFat s i n)

/-! ## File API -/

/-- The loop `for (uint8_t i = 0; i < 255; i++)` of `OS_File_New`, entered at
`i` with `k` rounds left; falls through to `return 255`. -/
def OS_File_New_loop (s : FS) : Nat → Nat → Nat
  | 0, _ => 255
  | k + 1, i => if dir s i = 255 then i else OS_File_New_loop s k (i + 1)

/-- The function `OS_File_New()`. -/
def OS_File_New (fuel : Nat) (s : FS) : Option Nat :=
  match find_free_sector fuel s with
  | none => none
  | some r => if r = 255 then some 255 else some (OS_File_New_loop s 255 0)

/-- The loop `while (RAM_FAT[current] != 0xff) { current = RAM_FAT[current]; size++; }`
of `OS_File_Size`, returning the final `size`. -/
def OS_File_Size_loop : Nat → FS → Nat → Nat → Option Nat
  | 0, _, _, _ => none
  | fuel + 1, s, current, size =>
    if fat s current ≠ 0xff then OS_File_Size_loop fuel s (fat s current) ((size + 1) % 256)
    else some size

/-- The function `OS_File_Size(num)`. -/
def OS_File_Size (fuel : Nat) (s : FS) (num : Nat) : Option Nat :=
  if dir s num = 255 then some 0 else OS_File_Size_loop fuel s (dir s num) 1

/-- The function `OS_File_Append(num, buf)`: its body is empty in the source, so
no table is touched and the value handed back is whatever the caller finds in
the return register, here the argument `ret`. -/
def OS_File_Append (s : FS) (_num : Nat) (_buf : Nat → Nat) (ret : Nat) : FS × Nat :=
  (s, ret % 256)

/-! ## Chains -/

/-- The chain that starts at head `h` has exactly `k` sectors: following
`RAM_FAT` from `h`, the sentinel 255 is met after `k` sectors and not before.
An empty file (`h = 255`) has `k = 0`. -/
def ChainLen (s : FS) (h k : Nat) : Prop :=
  (fat s)^[k] h = 255 ∧ ∀ j, j < k → (fat s)^[j] h ≠ 255

/-- Sector `c` lies on the chain of file `f`: it is reached from the head
`RAM_Directory[f]` before the sentinel is. -/
def InChain (s : FS) (f c : Nat) : Prop :=
  ∃ j, (fat s)^[j] (dir s f) = c ∧ ∀ i, i ≤ j → (fat s)^[i] (dir s f) ≠ 255

/-- Well-formed metadata: every chain ends at the sentinel after finitely many
sectors, chains of different files share no sector, slot 255 of the
directory holds the sentinel. -/
structure WellFormed (s : FS) : Prop where
  finite : ∀ f, f < 256 → ∃ k, ChainLen s (dir s f) k
  disjoint : ∀ f g c, f < 256 → g < 256 → InChain s f c → InChain s g c → f = g
  reserved : dir s 255 = 255

/-- The RAM tables before `OS_FS_Init` runs: C zero-initialises the globals. -/
def RAM_zero : FS := ⟨fun _ => 0, fun _ => 0⟩

/-- One allocation round of a session: `s = find_free_sector()` and then
`append_fat(f, s)`.  Gives the address `s` and the state after the round. -/
def alloc_link (fuel : Nat) (s : FS) (f : Nat) : Option (Nat × FS) :=
  match find_free_sector fuel s with
  | none => none
  | some a =>
    match append_fat fuel s f a with
    | none => none
    | some t => some (a, t)

/-- A session of allocation rounds, one for each file number of the list;
gives the addresses `find_free_sector` returned, in order. -/
def alloc_session (fuel : Nat) : List Nat → FS → Option (List Nat)
  | [], _ => some []
  | f :: fs, s =>
    match alloc_link fuel s f with
    | none => none
    | some (a, t) =>
      match alloc_session fuel fs t with
      | none => none
      | some as => some (a :: as)

/-- The identifiers returned by `n` calls of `OS_File_New()` made one after
the other: the function stores to neither table, so every call runs on the
state the first one ran on. -/
def OS_File_New_calls (fuel : Nat) (s : FS) : Nat → List (Option Nat)
  | 0 => []
  | n + 1 => OS_File_New fuel s :: OS_File_New_calls fuel s n

/-- Rounds of `id = OS_File_New()` followed by `append_fat(id, a)`, which gives
the new file its first sector `a`; one round for each `a` of the list.  Gives
the identifiers returned, in order. -/
def create_rounds (fuel : Nat) : List Nat → FS → Option (List Nat)
  | [], _ => some []
  | a :: as, s =>
    match OS_File_New fuel s with
    | none => none
    | some id =>
      match append_fat fuel s id a with
      | none => none
      | some t =>
        match create_rounds fuel as t with
        | none => none
        | some ids => some (id :: ids)

/-- A disk on which file 0 owns every usable sector: its chain is
0, 1, ..., 254. -/
def full_disk : FS :=
  ⟨fun i => if i = 0 then 0 else 255, fun i => if i < 254 then i + 1 else 255⟩

/-- The loop `for (uint8_t i = 0; i < location; i++)` of `OS_File_Read`, with
`k` rounds left; `none` stands for the `return 255` inside the loop. -/
def OS_File_Read_loop (s : FS) : Nat → Nat → Option Nat
  | 0, current => some current
  | k + 1, current =>
    if fat s current = 255 then none else OS_File_Read_loop s k (fat s current)

/-- Store `buf[k] = v` in a byte buffer. -/
def setBuf (buf : Nat → Nat) (k v : Nat) : Nat → Nat :=
  fun x => if x = k then v % 256 else buf x

/-- The loop `for (uint8_t j = 0; j < 4; j++) buf[i + j] = word >> j * 8;` of
`OS_File_Read`: the buffer after the first `j` rounds. -/
def OS_File_Read_bytes (word i : Nat) (buf : Nat → Nat) : Nat → (Nat → Nat)
  | 0 => buf
  | j + 1 => setBuf (OS_File_Read_bytes word i buf j) (i + j) (word >>> (j * 8))

/-- The loop `for (uint32_t i = 0; i < 512; i += 4)` of `OS_File_Read`: the
buffer after the first `w` rounds.  Round `w` runs with `i = 4 * w` and loads
`phys_address[i]`; `phys_address` points to `uint32_t`, so this is the word at
byte address `phys + 4 * i`.  The flash `mem` gives the 32-bit word stored at
a byte address. -/
def OS_File_Read_words (mem : Nat → Nat) (phys : Nat) (buf : Nat → Nat) : Nat → (Nat → Nat)
  | 0 => buf
  | w + 1 =>
    OS_File_Read_bytes (mem ((phys + 4 * (4 * w)) % 2 ^ 32) % 2 ^ 32) (4 * w)
      (OS_File_Read_words mem phys buf w) 4

/-- The function `OS_File_Read(num, location, buf)`: the value returned and the
buffer it leaves. -/
def OS_File_Read (s : FS) (mem : Nat → Nat) (num location : Nat) (buf : Nat → Nat) :
    Nat × (Nat → Nat) :=
  if dir s num = 255 then (255, buf)
  else
    match OS_File_Read_loop s (location % 256) (dir s num) with
    | none => (255, buf)
    | some current =>
      (0, OS_File_Read_words mem ((Disk_Start_Address + current * 512) % 2 ^ 32) buf 128)

/-- The loop `for (uint8_t j = 0; j < 4; j++) word |= (buf[i + j] << j * 8);`
of `eDisk_WriteSector`: the word after the first `j` rounds. -/
def eDisk_WriteSector_word (buf : Nat → Nat) (i : Nat) : Nat → Nat
  | 0 => 0
  | j + 1 => (eDisk_WriteSector_word buf i j ||| ((buf (i + j) % 256) <<< (j * 8))) % 2 ^ 32

/-- The loop `for (uint32_t i = 0; i < 512; i += 4)` of `eDisk_WriteSector`,
entered at `i` with `k` rounds left.  `Flash_Write` is the driver call, acting
on a driver state of type `σ`; a result other than 0 ends the loop with 1. -/
def eDisk_WriteSector_loop {σ : Type} (Flash_Write : σ → Nat → Nat → σ × Nat)
    (buf : Nat → Nat) (phys : Nat) : Nat → Nat → σ → σ × Nat
  | 0, _, fl => (fl, 0)
  | k + 1, i, fl =>
    let r := Flash_Write fl ((phys + i) % 2 ^ 32) (eDisk_WriteSector_word buf i 4)
    if r.2 ≠ 0 then (r.1, 1)
    else eDisk_WriteSector_loop Flash_Write buf phys k (i + 4) r.1

/-- The function `eDisk_WriteSector(buf, n)`: the driver state it leaves and
the value returned. -/
def eDisk_WriteSector {σ : Type} (Flash_Write : σ → Nat → Nat → σ × Nat)
    (buf : Nat → Nat) (n : Nat) (fl : σ) : σ × Nat :=
  eDisk_WriteSector_loop Flash_Write buf ((Disk_Start_Address + (n % 256) * 512) % 2 ^ 32)
    128 0 fl

/-- Modelled from the spec: `Flash_Write` of the flash driver, declared in
`FlashProgram.h`, which is not among the sources: `write(physical_address,
word) -> ok|error`.  This is the driver whose writes all succeed: the word is
stored at the byte address given and 0 is returned. -/
def Flash_Write (mem : Nat → Nat) (addr word : Nat) : (Nat → Nat) × Nat :=
  (fun a => if a = addr then word else mem a, 0)

/-- Erased flash: every word reads `0xFFFFFFFF`. -/
def flash_erased : Nat → Nat := fun _ => 0xFFFFFFFF

/-- A 512-byte buffer whose byte `k` is `k mod 256`. -/
def ramp : Nat → Nat := fun k => k % 256

/-- The state after `OS_FS_Init` and `append_fat(0, 0)`: file 0 owns sector 0. -/
def one_sector : FS := setDir (OS_FS_Init RAM_zero) 0 0

/-! ## Flush and format -/

/-- Read of a 256-entry `uint8_t` table at an index held in a 32-bit
variable: for `idx < 256` the entry of the table, beyond that the byte that
lies `idx` bytes after the start of the table, given by `past`. -/
def wide_read (tbl : Nat → Nat) (past : Nat → Nat) (idx : Nat) : Nat :=
  if idx < 256 then tbl idx else past idx % 256

/-- The loop `for (uint8_t j = 0; j < 4; j++)` of `OS_File_Flush`: the word
after the first `j` rounds.  It takes `RAM_Directory[i + j]` when `i < 256`
and `RAM_FAT[i + j]` otherwise; `pastDir` and `pastFat` are the bytes that
follow the two tables in memory. -/
def OS_File_Flush_word (s : FS) (pastDir pastFat : Nat → Nat) (i : Nat) : Nat → Nat
  | 0 => 0
  | j + 1 =>
    if i < 256 then
      (OS_File_Flush_word s pastDir pastFat i j |||
        (wide_read (dir s) pastDir (i + j) <<< (j * 8))) % 2 ^ 32
    else
      (OS_File_Flush_word s pastDir pastFat i j |||
        (wide_read (fat s) pastFat (i + j) <<< (j * 8))) % 2 ^ 32

/-- The loop `for (uint32_t i = 0; i < 512; i += 4)` of `OS_File_Flush`,
entered at `i` with `k` rounds left; `some 1` is the `return 1` inside the
loop, `none` means the loop ran to its end. -/
def OS_File_Flush_loop {σ : Type} (Flash_Write : σ → Nat → Nat → σ × Nat) (s : FS)
    (pastDir pastFat : Nat → Nat) (phys : Nat) : Nat → Nat → σ → σ × Option Nat
  | 0, _, fl => (fl, none)
  | k + 1, i, fl =>
    let r := Flash_Write fl ((phys + i) % 2 ^ 32) (OS_File_Flush_word s pastDir pastFat i 4)
    if r.2 ≠ 0 then (r.1, some 1)
    else OS_File_Flush_loop Flash_Write s pastDir pastFat phys k (i + 4) r.1

/-- The function `OS_File_Flush()`: the driver state it leaves and the value
returned.  No `return` follows the loop in the source, so after a completed
loop the caller finds whatever the return register holds, the argument `ret`. -/
def OS_File_Flush {σ : Type} (Flash_Write : σ → Nat → Nat → σ × Nat) (s : FS)
    (pastDir pastFat : Nat → Nat) (ret : Nat) (fl : σ) : σ × Nat :=
  match OS_File_Flush_loop Flash_Write s pastDir pastFat
      ((Disk_Start_Address + 255 * 512) % 2 ^ 32) 128 0 fl with
  | (fl1, some v) => (fl1, v)
  | (fl1, none) => (fl1, ret % 256)

/-- The loop `while (address <= 0x00040000) { Flash_Erase(address); address += 1024; }`
of `OS_File_Format`; the result of `Flash_Erase` is not looked at. -/
def OS_File_Format_loop {σ : Type} (Flash_Erase : σ → Nat → σ × Nat) :
    Nat → Nat → σ → Option σ
  | 0, _, _ => none
  | fuel + 1, address, fl =>
    if address ≤ 0x00040000 then
      OS_File_Format_loop Flash_Erase fuel ((address + 1024) % 2 ^ 32) (Flash_Erase fl address).1
    else some fl

/-- The function `OS_File_Format()`: the driver state it leaves.  The source
has no `return`, so no returned value is modelled. -/
def OS_File_Format {σ : Type} (Flash_Erase : σ → Nat → σ × Nat) (fuel : Nat) (fl : σ) :
    Option σ :=
  OS_File_Format_loop Flash_Erase fuel 0x00020000 fl

/-- Modelled from the spec: `Flash_Write` of the flash driver, which is not
among the sources: `write(physical_address, word) -> ok|error`.  This driver
keeps the list of the calls made so far and answers each call with the result
code `res` assigns to the calls before it and to its arguments; every
deterministic driver behaves like this for some `res`. -/
def Flash_Write_rec (res : List (Nat × Nat) → Nat → Nat → Nat) (log : List (Nat × Nat))
    (addr word : Nat) : List (Nat × Nat) × Nat :=
  (log ++ [(addr, word)], res log addr word)

/-- Modelled from the spec: `Flash_Erase` of the flash driver, which is not
among the sources: `erase(block_address) -> ok|error`.  This driver keeps the
list of the block addresses it was called with and answers with `res`. -/
def Flash_Erase_rec (res : List Nat → Nat → Nat) (log : List Nat) (addr : Nat) :
    List Nat × Nat :=
  (log ++ [addr], res log addr)

/-- The call of `Flash_Write` that `eDisk_WriteSector(buf, n)` makes for word
`w`: address and word, as the loop computes them. -/
def eDisk_call (buf : Nat → Nat) (n w : Nat) : Nat × Nat :=
  (((Disk_Start_Address + (n % 256) * 512) % 2 ^ 32 + 4 * w) % 2 ^ 32,
    eDisk_WriteSector_word buf (4 * w) 4)

/-- The calls for words `0 .. w-1`, in order. -/
def eDisk_calls (buf : Nat → Nat) (n w : Nat) : List (Nat × Nat) :=
  (List.range w).map (eDisk_call buf n)

/-- The result code the recording driver gives to the call for word `w` when
the calls for the words before it have been made. -/
def eDisk_result (res : List (Nat × Nat) → Nat → Nat → Nat) (buf : Nat → Nat) (n w : Nat) :
    Nat :=
  res (eDisk_calls buf n w) (eDisk_call buf n w).1 (eDisk_call buf n w).2

/-- The invariant of the metadata: well-formed, no sector twice on one chain,
every sector that lies on no chain has `RAM_FAT` entry 255, and
`RAM_FAT[255] == 255`. -/
structure Invariant (s : FS) : Prop where
  wf : WellFormed s
  nodup : ∀ f k a b, f < 256 → ChainLen s (dir s f) k → a < b → b < k →
    (fat s)^[a] (dir s f) ≠ (fat s)^[b] (dir s f)
  free_fat : ∀ c, c < 256 → (∀ f, f < 256 → ¬ InChain s f c) → fat s c = 255
  fat_reserved : fat s 255 = 255

/-- A directory with no free slot: file `i` owns the single sector `i`, for
every `i` in 0..254. -/
def full_directory : FS := ⟨fun i => if i < 255 then i else 255, fun _ => 255⟩

/-- A flash in which every word of sector `k` of the disk holds the value `k`. -/
def sector_tag : Nat → Nat := fun a => (a - Disk_Start_Address) / 512

/-! ## Reads and stores -/

theorem dir_lt (s : FS) (i : Nat) : dir s i < 256 := Nat.mod_lt _ (by decide)

theorem fat_lt (s : FS) (i : Nat) : fat s i < 256 := Nat.mod_lt _ (by decide)

theorem dir_mod (s : FS) (i : Nat) : dir s (i % 256) = dir s i := by
  simp [dir]

theorem fat_mod (s : FS) (i : Nat) : fat s (i % 256) = fat s i := by
  simp [fat]

theorem dir_setDir (s : FS) (i v j : Nat) :
    dir (setDir s i v) j = if j % 256 = i % 256 then v % 256 else dir s j := by
  unfold dir setDir
  by_cases h : j % 256 = i % 256 <;> simp [h]

theorem fat_setDir (s : FS) (i v j : Nat) : fat (setDir s i v) j = fat s j := rfl

theorem dir_setFat (s : FS) (i v j : Nat) : dir (setFat s i v) j = dir s j := rfl

theorem fat_setFat (s : FS) (i v j : Nat) :
    fat (setFat s i v) j = if j % 256 = i % 256 then v % 256 else fat s j := by
  unfold fat setFat
  by_cases h : j % 256 = i % 256 <;> simp [h]

theorem OS_FS_Init_loop_reads (s : FS) (n j : Nat) (h : j % 256 < n) :
    dir (OS_FS_Init_loop s n) j = 255 ∧ fat (OS_FS_Init_loop s n) j = 255 := by
  induction n with
  | zero => omega
  | succ n ih =>
    simp only [OS_FS_Init_loop, dir_setFat, dir_setDir, fat_setFat, fat_setDir]
    by_cases hj : j % 256 = n % 256
    · simp [hj]
    · have hn : j % 256 < n := by
        rcases Nat.lt_or_ge n 256 with h1 | h1
        · rw [Nat.mod_eq_of_lt h1] at hj; omega
        · omega
      simp [hj, ih hn]

theorem dir_OS_FS_Init (s : FS) (j : Nat) : dir (OS_FS_Init s) j = 255 :=
  (OS_FS_Init_loop_reads s 256 j (Nat.mod_lt _ (by decide))).1

theorem fat_OS_FS_Init (s : FS) (j : Nat) : fat (OS_FS_Init s) j = 255 :=
  (OS_FS_Init_loop_reads s 256 j (Nat.mod_lt _ (by decide))).2

/-! ## Chain walks -/

theorem iter_lt (s : FS) (h : Nat) (hh : h < 256) (j : Nat) : (fat s)^[j] h < 256 := by
  cases j with
  | zero => simpa using hh
  | succ j => rw [Function.iterate_succ_apply']; exact fat_lt _ _

theorem ChainLen_zero_iff (s : FS) (h : Nat) : ChainLen s h 0 ↔ h = 255 := by
  simp [ChainLen]

theorem ChainLen_unique (s : FS) (h k l : Nat) (hk : ChainLen s h k) (hl : ChainLen s h l) :
    k = l := by
  rcases Nat.lt_trichotomy k l with hlt | heq | hgt
  · exact absurd hk.1 (hl.2 k hlt)
  · exact heq
  · exact absurd hl.1 (hk.2 l hgt)

theorem ChainLen_tail (s : FS) (c k : Nat) (hk : ChainLen s c (k + 1)) :
    ChainLen s (fat s c) k := by
  refine ⟨?_, fun j hj => ?_⟩
  · have := hk.1; rwa [Function.iterate_succ_apply] at this
  · have := hk.2 (j + 1) (by omega); rwa [Function.iterate_succ_apply] at this

theorem ChainLen_head_ne (s : FS) (c k : Nat) (hk : ChainLen s c (k + 1)) : c ≠ 255 := by
  simpa using hk.2 0 (by omega)

/-- On a chain the sectors are pairwise different. -/
theorem ChainLen_inj (s : FS) (h k : Nat) (hk : ChainLen s h k) (a b : Nat)
    (hab : a < b) (hb : b < k) : (fat s)^[a] h ≠ (fat s)^[b] h := by
  intro heq
  have hshift : ∀ m, (fat s)^[m + a] h = (fat s)^[m + b] h := by
    intro m
    rw [Function.iterate_add_apply, Function.iterate_add_apply, heq]
  have h1 := hshift (k - b)
  have h2 : k - b + b = k := by omega
  rw [h2, hk.1] at h1
  exact hk.2 (k - b + a) (by omega) h1

/-- A chain over 8-bit sector addresses has at most 255 sectors. -/
theorem ChainLen_le (s : FS) (h k : Nat) (hh : h < 256) (hk : ChainLen s h k) : k ≤ 255 := by
  have hmaps : ∀ j ∈ Finset.range k, (fun j => (fat s)^[j] h) j ∈ Finset.range 255 := by
    intro j hj
    have h1 := iter_lt s h hh j
    have h2 := hk.2 j (Finset.mem_range.mp hj)
    simp only [Finset.mem_range]
    omega
  have hinj : Set.InjOn (fun j => (fat s)^[j] h) (Finset.range k : Set Nat) := by
    intro a ha b hb hab
    simp only [Finset.coe_range, Set.mem_Iio] at ha hb
    rcases Nat.lt_trichotomy a b with hlt | heq | hgt
    · exact absurd hab (ChainLen_inj s h k hk a b hlt hb)
    · exact heq
    · exact absurd hab.symm (ChainLen_inj s h k hk b a hgt ha)
  have := Finset.card_le_card_of_injOn _ hmaps hinj
  simpa using this

/-! ## The chain-walking loops -/

theorem last_sector_loop_eq (s : FS) (k : Nat) : ∀ (c fuel : Nat), ChainLen s c (k + 1) →
    k + 1 ≤ fuel → last_sector_loop fuel s c = some ((fat s)^[k] c) := by
  induction k with
  | zero =>
    intro c fuel hk hf
    obtain ⟨fuel, rfl⟩ : ∃ m, fuel = m + 1 := ⟨fuel - 1, by omega⟩
    have h1 : fat s c = 255 := by simpa using hk.1
    simp [last_sector_loop, h1]
  | succ k ih =>
    intro c fuel hk hf
    obtain ⟨fuel, rfl⟩ : ∃ m, fuel = m + 1 := ⟨fuel - 1, by omega⟩
    have h1 : fat s c ≠ 255 := by simpa using hk.2 1 (by omega)
    have h2 := ih (fat s c) fuel (ChainLen_tail s c (k + 1) hk) (by omega)
    simp only [last_sector_loop, h1, ne_eq, not_false_eq_true, if_true, h2]
    rw [Function.iterate_succ_apply (fat s) k c]

theorem last_sector_loop_lt (s : FS) : ∀ (fuel c r : Nat), c < 256 →
    last_sector_loop fuel s c = some r → r < 256 := by
  intro fuel
  induction fuel with
  | zero => intro c r _ h; simp [last_sector_loop] at h
  | succ fuel ih =>
    intro c r hc h
    simp only [last_sector_loop] at h
    split at h
    · exact ih _ _ (fat_lt _ _) h
    · simp only [Option.some.injEq] at h; omega

theorem last_sector_lt (s : FS) (n start r : Nat) (h : last_sector n s start = some r) :
    r < 256 := by
  unfold last_sector at h
  split at h
  · simp only [Option.some.injEq] at h; omega
  · split at h
    · simp only [Option.some.injEq] at h; omega
    · exact last_sector_loop_lt s n _ r (dir_lt _ _) h

/-- When the chain of the file is finite, `last_sector` returns. -/
theorem last_sector_some (s : FS) (start k : Nat) (hk : ChainLen s (dir s start) k) :
    ∃ r, r < 256 ∧ ∀ n, 255 ≤ n → last_sector n s start = some r := by
  by_cases h1 : start % 256 = 255
  · exact ⟨255, by omega, fun n _ => by simp [last_sector, h1]⟩
  by_cases h2 : dir s start = 255
  · exact ⟨255, by omega, fun n _ => by simp [last_sector, h1, h2]⟩
  have hle := ChainLen_le s _ k (dir_lt _ _) hk
  cases k with
  | zero => exact absurd ((ChainLen_zero_iff _ _).1 hk) h2
  | succ k =>
    refine ⟨(fat s)^[k] (dir s start), iter_lt s _ (dir_lt _ _) k, fun n hn => ?_⟩
    simp only [last_sector, h1, h2, if_false]
    exact last_sector_loop_eq s k _ n hk (by omega)

theorem OS_File_Size_loop_eq (s : FS) (k : Nat) : ∀ (c fuel size : Nat),
    ChainLen s c (k + 1) → k + 1 ≤ fuel → size + k < 256 →
    OS_File_Size_loop fuel s c size = some (size + k) := by
  induction k with
  | zero =>
    intro c fuel size hk hf _
    obtain ⟨fuel, rfl⟩ : ∃ m, fuel = m + 1 := ⟨fuel - 1, by omega⟩
    have h1 : fat s c = 255 := by simpa using hk.1
    simp [OS_File_Size_loop, h1]
  | succ k ih =>
    intro c fuel size hk hf hs
    obtain ⟨fuel, rfl⟩ : ∃ m, fuel = m + 1 := ⟨fuel - 1, by omega⟩
    have h1 : fat s c ≠ 255 := by simpa using hk.2 1 (by omega)
    have h3 : (size + 1) % 256 = size + 1 := Nat.mod_eq_of_lt (by omega)
    have h2 := ih (fat s c) fuel (size + 1) (ChainLen_tail s c (k + 1) hk) (by omega) (by omega)
    simp only [OS_File_Size_loop, h1, ne_eq, not_false_eq_true, if_true, h3, h2]
    congr 1; omega

theorem append_fat_loop_eq (s : FS) (k : Nat) : ∀ (c fuel : Nat), ChainLen s c (k + 1) →
    k + 1 ≤ fuel → append_fat_loop fuel s c (fat s c) = some ((fat s)^[k] c) := by
  induction k with
  | zero =>
    intro c fuel hk hf
    obtain ⟨fuel, rfl⟩ : ∃ m, fuel = m + 1 := ⟨fuel - 1, by omega⟩
    have h1 : fat s c = 255 := by simpa using hk.1
    simp [append_fat_loop, h1]
  | succ k ih =>
    intro c fuel hk hf
    obtain ⟨fuel, rfl⟩ : ∃ m, fuel = m + 1 := ⟨fuel - 1, by omega⟩
    have h1 : fat s c ≠ 255 := by simpa using hk.2 1 (by omega)
    have h2 := ih (fat s c) fuel (ChainLen_tail s c (k + 1) hk) (by omega)
    simp only [append_fat_loop, h1, ne_eq, not_false_eq_true, if_true, h2]
    rw [Function.iterate_succ_apply (fat s) k c]

/-! ## `find_free_sector` -/

theorem neg_one_u8 : ((-1 : Int) % 256).toNat = 255 := by decide

/-- With the running maximum at 255 the loop can only hand back 0. -/
theorem find_free_sector_loop_val (s : FS) (n : Nat) : ∀ (fuel i v : Nat),
    find_free_sector_loop n fuel s i 255 = some v → v = 0 := by
  intro fuel
  induction fuel with
  | zero => intro i v h; simp [find_free_sector_loop] at h
  | succ fuel ih =>
    intro i v h
    simp only [find_free_sector_loop] at h
    split at h
    · simp at h
    · rename_i ls hls
      have hlt := last_sector_lt s n _ ls hls
      split at h
      · simp only [Option.some.injEq] at h; omega
      · have hfs : (if ls > 255 then ls else 255) = 255 := by
          rw [if_neg]; omega
        rw [hfs] at h
        exact ih _ _ h

theorem find_free_sector_val (s : FS) (fuel v : Nat) (h : find_free_sector fuel s = some v) :
    v = 0 := by
  unfold find_free_sector at h
  rw [neg_one_u8] at h
  exact find_free_sector_loop_val s fuel fuel 0 v h

theorem find_free_sector_loop_some (s : FS) (hfin : ∀ f, f < 256 → ∃ k, ChainLen s (dir s f) k)
    (hres : dir s 255 = 255) (n : Nat) (hn : 255 ≤ n) : ∀ (d i fuel : Nat), i + d = 255 →
    d + 1 ≤ fuel → find_free_sector_loop n fuel s i 255 = some 0 := by
  intro d
  induction d with
  | zero =>
    intro i fuel hi hf
    obtain ⟨fuel, rfl⟩ : ∃ m, fuel = m + 1 := ⟨fuel - 1, by omega⟩
    have hi2 : i = 255 := by omega
    subst hi2
    simp [find_free_sector_loop, hres, last_sector]
  | succ d ih =>
    intro i fuel hi hf
    obtain ⟨fuel, rfl⟩ : ∃ m, fuel = m + 1 := ⟨fuel - 1, by omega⟩
    obtain ⟨k, hk⟩ := hfin (dir s i) (dir_lt _ _)
    obtain ⟨r, hr, hls⟩ := last_sector_some s (dir s i) k hk
    simp only [find_free_sector_loop, hls n hn]
    by_cases h255 : r = 255
    · simp [h255]
    · have hfs : (if r > 255 then r else 255) = 255 := by
        rw [if_neg]; omega
      have hi1 : (i + 1) % 256 = i + 1 := Nat.mod_eq_of_lt (by omega)
      simp only [h255, if_false, hfs, hi1]
      exact ih (i + 1) fuel (by omega) (by omega)

/-- When every chain is finite and slot 255 of the directory is empty,
`find_free_sector` returns, and what it returns is 0. -/
theorem find_free_sector_some (s : FS) (hfin : ∀ f, f < 256 → ∃ k, ChainLen s (dir s f) k)
    (hres : dir s 255 = 255) (fuel : Nat) (hf : 256 ≤ fuel) :
    find_free_sector fuel s = some 0 := by
  unfold find_free_sector
  rw [neg_one_u8]
  exact find_free_sector_loop_some s hfin hres fuel (by omega) 255 0 fuel (by omega) (by omega)

/-! ## States whose FAT holds only sentinels -/

theorem flat_iter (s : FS) (hflat : ∀ c, fat s c = 255) (h j : Nat) :
    (fat s)^[j + 1] h = 255 := by
  rw [Function.iterate_succ_apply']; exact hflat _

theorem flat_chain (s : FS) (hflat : ∀ c, fat s c = 255) (h : Nat) :
    ∃ k, ChainLen s h k := by
  by_cases hh : h = 255
  · exact ⟨0, (ChainLen_zero_iff s h).2 hh⟩
  · refine ⟨1, flat_iter s hflat h 0, fun j hj => ?_⟩
    have : j = 0 := by omega
    subst this; simpa using hh

theorem flat_inChain (s : FS) (hflat : ∀ c, fat s c = 255) (f c : Nat) (h : InChain s f c) :
    c = dir s f ∧ dir s f ≠ 255 := by
  obtain ⟨j, hj, hne⟩ := h
  cases j with
  | zero => exact ⟨by simpa using hj.symm, by simpa using hne 0 (le_refl _)⟩
  | succ j => exact absurd (flat_iter s hflat _ j) (hne (j + 1) (le_refl _))

theorem WellFormed_OS_FS_Init (s : FS) : WellFormed (OS_FS_Init s) where
  finite := fun _ _ => flat_chain _ (fat_OS_FS_Init s) _
  disjoint := fun f _ c _ _ hf _ =>
    absurd (dir_OS_FS_Init s f) (flat_inChain _ (fat_OS_FS_Init s) f c hf).2
  reserved := dir_OS_FS_Init s 255

/-! ## `OS_File_New` -/

theorem OS_File_New_loop_spec (s : FS) : ∀ (k i : Nat), i + k = 255 →
    (OS_File_New_loop s k i = 255 ∧ ∀ j, i ≤ j → j < 255 → dir s j ≠ 255) ∨
    (i ≤ OS_File_New_loop s k i ∧ OS_File_New_loop s k i < 255 ∧
      dir s (OS_File_New_loop s k i) = 255 ∧
      ∀ j, i ≤ j → j < OS_File_New_loop s k i → dir s j ≠ 255) := by
  intro k
  induction k with
  | zero =>
    intro i hi
    left
    exact ⟨rfl, fun j h1 h2 => by omega⟩
  | succ k ih =>
    intro i hi
    by_cases hd : dir s i = 255
    · right
      have hv : OS_File_New_loop s (k + 1) i = i := by simp [OS_File_New_loop, hd]
      rw [hv]
      exact ⟨le_refl _, by omega, hd, fun j h1 h2 => by omega⟩
    · have hv : OS_File_New_loop s (k + 1) i = OS_File_New_loop s k (i + 1) := by
        simp [OS_File_New_loop, hd]
      rw [hv]
      rcases ih (i + 1) (by omega) with ⟨h1, h2⟩ | ⟨h1, h2, h3, h4⟩
      · left
        refine ⟨h1, fun j hj1 hj2 => ?_⟩
        rcases Nat.eq_or_lt_of_le hj1 with heq | hlt
        · rw [← heq]; exact hd
        · exact h2 j hlt hj2
      · right
        refine ⟨by omega, h2, h3, fun j hj1 hj2 => ?_⟩
        rcases Nat.eq_or_lt_of_le hj1 with heq | hlt
        · rw [← heq]; exact hd
        · exact h4 j hlt hj2

theorem OS_File_New_eq (s : FS) (j : Nat) (hj : j < 255)
    (hfin : ∀ f, f < 256 → ∃ k, ChainLen s (dir s f) k) (hres : dir s 255 = 255)
    (hused : ∀ i, i < j → dir s i ≠ 255) (hfree : dir s j = 255)
    (fuel : Nat) (hf : 256 ≤ fuel) : OS_File_New fuel s = some j := by
  have hloop : OS_File_New_loop s 255 0 = j := by
    rcases OS_File_New_loop_spec s 255 0 (by omega) with ⟨_, h2⟩ | ⟨_, h2, h3, h4⟩
    · exact absurd hfree (h2 j (by omega) hj)
    · rcases Nat.lt_trichotomy (OS_File_New_loop s 255 0) j with hlt | heq | hgt
      · exact absurd h3 (hused _ hlt)
      · exact heq
      · exact absurd hfree (h4 j (by omega) hgt)
  simp [OS_File_New, find_free_sector_some s hfin hres fuel hf, hloop]

theorem create_rounds_from (secs : List Nat) : ∀ (s : FS) (j : Nat), (∀ c, fat s c = 255) →
    (∀ i, i < j → dir s i ≠ 255) → (∀ i, j ≤ i → i < 256 → dir s i = 255) →
    j + secs.length ≤ 255 → (∀ a ∈ secs, a % 256 ≠ 255) →
    create_rounds 256 secs s = some (List.range' j secs.length) := by
  induction secs with
  | nil => intro s j _ _ _ _ _; simp [create_rounds]
  | cons a as ih =>
    intro s j hflat hused hfree hlen hsec
    simp only [List.length_cons] at hlen
    have hnew : OS_File_New 256 s = some j :=
      OS_File_New_eq s j (by omega) (fun f _ => flat_chain s hflat _)
        (hfree 255 (by omega) (by omega)) hused (hfree j (le_refl _) (by omega)) 256 (le_refl _)
    have happ : append_fat 256 s j a = some (setDir s j a) := by
      simp [append_fat, hfree j (le_refl _) (by omega)]
    have hrec := ih (setDir s j a) (j + 1) (fun c => by rw [fat_setDir]; exact hflat c)
      (fun i hi => by
        rw [dir_setDir]
        by_cases hij : i % 256 = j % 256
        · rw [if_pos hij]; exact hsec a (List.mem_cons_self _ _)
        · rw [if_neg hij]
          refine hused i ?_
          rcases Nat.lt_or_ge i j with h | h
          · exact h
          · have : i = j := by omega
            exact absurd (by rw [this]) hij)
      (fun i hi1 hi2 => by
        rw [dir_setDir, if_neg (by omega)]
        exact hfree i (by omega) hi2)
      (by omega) (fun b hb => hsec b (List.mem_cons_of_mem _ hb))
    simp [create_rounds, hnew, happ, hrec, List.range'_succ]

/-! ## The disk whose sectors all belong to file 0 -/

theorem dir_full_disk (f : Nat) : dir full_disk f = if f % 256 = 0 then 0 else 255 := by
  unfold dir full_disk
  by_cases h : f % 256 = 0 <;> simp [h]

theorem fat_full_disk (c : Nat) (hc : c < 256) :
    fat full_disk c = if c < 254 then c + 1 else 255 := by
  unfold fat full_disk
  rw [Nat.mod_eq_of_lt hc]
  by_cases h : c < 254
  · simp only [h, if_true]; exact Nat.mod_eq_of_lt (by omega)
  · simp [h]

theorem iter_full_disk (j : Nat) (hj : j ≤ 255) : (fat full_disk)^[j] 0 = j := by
  induction j with
  | zero => rfl
  | succ j ih =>
    rw [Function.iterate_succ_apply', ih (by omega), fat_full_disk j (by omega)]
    by_cases h : j < 254
    · rw [if_pos h]
    · rw [if_neg h]; omega

theorem chain_full_disk : ChainLen full_disk 0 255 :=
  ⟨iter_full_disk 255 (le_refl _), fun j hj => by rw [iter_full_disk j (by omega)]; omega⟩

theorem WellFormed_full_disk : WellFormed full_disk where
  finite := fun f _ => by
    rw [dir_full_disk]
    by_cases h : f % 256 = 0
    · rw [if_pos h]; exact ⟨255, chain_full_disk⟩
    · rw [if_neg h]; exact ⟨0, (ChainLen_zero_iff _ _).2 rfl⟩
  disjoint := fun f g c hf hg h1 h2 => by
    obtain ⟨j1, _, n1⟩ := h1
    obtain ⟨j2, _, n2⟩ := h2
    have e1 := n1 0 (Nat.zero_le _)
    have e2 := n2 0 (Nat.zero_le _)
    rw [Function.iterate_zero_apply, dir_full_disk] at e1 e2
    have f0 : f % 256 = 0 := by
      by_contra h; rw [if_neg h] at e1; exact e1 rfl
    have g0 : g % 256 = 0 := by
      by_contra h; rw [if_neg h] at e2; exact e2 rfl
    omega
  reserved := by rw [dir_full_disk]; rfl

/-! ## The state with one file of one sector -/

theorem fat_one_sector (c : Nat) : fat one_sector c = 255 := by
  unfold one_sector; rw [fat_setDir]; exact fat_OS_FS_Init _ c

theorem dir_one_sector (f : Nat) : dir one_sector f = if f % 256 = 0 then 0 else 255 := by
  unfold one_sector; rw [dir_setDir, dir_OS_FS_Init]

theorem inChain_one_sector (f c : Nat) (h : InChain one_sector f c) : f % 256 = 0 ∧ c = 0 := by
  have h1 := flat_inChain _ fat_one_sector f c h
  rw [dir_one_sector] at h1
  by_cases hf : f % 256 = 0
  · rw [if_pos hf] at h1; exact ⟨hf, h1.1⟩
  · rw [if_neg hf] at h1; exact absurd rfl h1.2

theorem WellFormed_one_sector : WellFormed one_sector where
  finite := fun _ _ => flat_chain _ fat_one_sector _
  disjoint := fun f g c hf hg h1 h2 => by
    have := (inChain_one_sector f c h1).1
    have := (inChain_one_sector g c h2).1
    omega
  reserved := by rw [dir_one_sector]; rfl

theorem chain_one_sector : ChainLen one_sector (dir one_sector 0) 1 := by
  rw [dir_one_sector]
  refine ⟨flat_iter _ fat_one_sector _ 0, fun j hj => ?_⟩
  have : j = 0 := by omega
  subst this; decide

/-! ## Size, last sector, read position -/

theorem OS_File_Size_eq (s : FS) (num k : Nat) (hk : ChainLen s (dir s num) k)
    (fuel : Nat) (hf : 255 ≤ fuel) : OS_File_Size fuel s num = some k := by
  have hle := ChainLen_le s _ k (dir_lt _ _) hk
  cases k with
  | zero => simp [OS_File_Size, (ChainLen_zero_iff _ _).1 hk]
  | succ k =>
    have h1 := ChainLen_head_ne s _ k hk
    simp only [OS_File_Size, h1, if_false]
    rw [OS_File_Size_loop_eq s k _ fuel 1 hk (by omega) (by omega), Nat.add_comm]

theorem last_sector_eq (s : FS) (num k : Nat) (hnum : num % 256 ≠ 255)
    (hk : ChainLen s (dir s num) (k + 1)) (fuel : Nat) (hf : 255 ≤ fuel) :
    last_sector fuel s num = some ((fat s)^[k] (dir s num)) := by
  have hle := ChainLen_le s _ _ (dir_lt _ _) hk
  have h1 := ChainLen_head_ne s _ k hk
  simp only [last_sector, hnum, h1, if_false]
  exact last_sector_loop_eq s k _ fuel hk (by omega)

theorem OS_File_Read_loop_spec (s : FS) : ∀ (loc c k : Nat), ChainLen s c (k + 1) →
    (loc ≤ k → OS_File_Read_loop s loc c = some ((fat s)^[loc] c)) ∧
    (k < loc → OS_File_Read_loop s loc c = none) := by
  intro loc
  induction loc with
  | zero => intro c k _; exact ⟨fun _ => rfl, fun h => by omega⟩
  | succ loc ih =>
    intro c k hk
    cases k with
    | zero =>
      have h1 : fat s c = 255 := by simpa using hk.1
      exact ⟨fun h => by omega, fun _ => by simp [OS_File_Read_loop, h1]⟩
    | succ k =>
      have h1 : fat s c ≠ 255 := by simpa using hk.2 1 (by omega)
      have h2 := ih (fat s c) k (ChainLen_tail s c (k + 1) hk)
      simp only [OS_File_Read_loop, h1, if_false]
      refine ⟨fun h => ?_, fun h => h2.2 (by omega)⟩
      rw [h2.1 (by omega), Function.iterate_succ_apply]

/-! ## Stores and chains -/

theorem iter_setFat (s : FS) (tl n h : Nat) : ∀ j,
    (∀ i, i < j → (fat s)^[i] h % 256 ≠ tl % 256) →
    (fat (setFat s tl n))^[j] h = (fat s)^[j] h := by
  intro j
  induction j with
  | zero => intro _; rfl
  | succ j ih =>
    intro hne
    rw [Function.iterate_succ_apply', Function.iterate_succ_apply',
      ih (fun i hi => hne i (by omega)), fat_setFat, if_neg (hne j (by omega))]

theorem iter_setDir (s : FS) (i v h j : Nat) : (fat (setDir s i v))^[j] h = (fat s)^[j] h := rfl

theorem inChain_of_lt (s : FS) (f k j : Nat) (hk : ChainLen s (dir s f) k) (hj : j < k) :
    InChain s f ((fat s)^[j] (dir s f)) :=
  ⟨j, rfl, fun i hi => hk.2 i (by omega)⟩

/-! ## `append_fat` on a well-formed state -/

/-- What `append_fat(num, n)` does to the tables and to the chains, for a
free sector `n` and a file whose chain has `k` sectors. -/
theorem append_fat_core (s : FS) (num n k : Nat) (hwf : WellFormed s) (hnum : num < 255)
    (hn : n < 255) (hfree : ∀ f, f < 256 → ¬ InChain s f n) (hfat : fat s n = 255)
    (hk : ChainLen s (dir s num) k) :
    ∃ t, (∀ fuel, 255 ≤ fuel → append_fat fuel s num n = some t) ∧
      ChainLen t (dir t num) (k + 1) ∧
      (∀ j, j < k → (fat t)^[j] (dir t num) = (fat s)^[j] (dir s num)) ∧
      (fat t)^[k] (dir t num) = n ∧
      (dir s num = 255 → dir t num ≠ dir s num ∧
        (∀ i, i < 256 → i ≠ num → dir t i = dir s i) ∧ ∀ c, fat t c = fat s c) ∧
      (dir s num ≠ 255 → (∀ i, dir t i = dir s i) ∧
        fat t ((fat s)^[k - 1] (dir s num)) ≠ fat s ((fat s)^[k - 1] (dir s num)) ∧
        ∀ c, c < 256 → c ≠ (fat s)^[k - 1] (dir s num) → fat t c = fat s c) ∧
      (∀ g l, g < 256 → g ≠ num → ChainLen s (dir s g) l →
        ∀ j, j ≤ l → (fat t)^[j] (dir t g) = (fat s)^[j] (dir s g)) := by
  have hnmod : n % 256 = n := Nat.mod_eq_of_lt (by omega)
  by_cases hd : dir s num = 255
  · -- the file has no head: only the directory entry is stored
    have hk0 : k = 0 := ChainLen_unique s _ k 0 hk ((ChainLen_zero_iff _ _).2 hd)
    subst hk0
    have hdt : dir (setDir s num n) num = n := by rw [dir_setDir, if_pos rfl, hnmod]
    have hdo : ∀ i, i < 256 → i ≠ num → dir (setDir s num n) i = dir s i := by
      intro i hi hne
      rw [dir_setDir, if_neg (by omega)]
    refine ⟨setDir s num n, fun fuel _ => by simp [append_fat, hd], ?_, fun j hj => by omega,
      ?_, fun _ => ⟨?_, hdo, fun c => rfl⟩, fun h => absurd hd h, ?_⟩
    · rw [hdt]
      refine ⟨hfat, fun j hj => ?_⟩
      have : j = 0 := by omega
      subst this
      show n ≠ 255
      omega
    · exact hdt
    · rw [hdt, hd]; omega
    · intro g l hg hne _ j _
      rw [hdo g hg hne]
      rfl
  · -- the file has a chain: the FAT entry of its tail is stored
    obtain ⟨k, rfl⟩ : ∃ m, k = m + 1 := by
      cases k with
      | zero => exact absurd ((ChainLen_zero_iff _ _).1 hk) hd
      | succ m => exact ⟨m, rfl⟩
    have hle := ChainLen_le s _ _ (dir_lt _ _) hk
    have hlt : ∀ j, (fat s)^[j] (dir s num) < 256 := iter_lt s _ (dir_lt _ _)
    have htl255 : (fat s)^[k] (dir s num) ≠ 255 := hk.2 k (by omega)
    have hntl : n ≠ (fat s)^[k] (dir s num) := by
      intro h
      exact hfree num (by omega) (h ▸ inChain_of_lt s num (k + 1) k hk (by omega))
    have hpre : ∀ j, j ≤ k →
        (fat (setFat s ((fat s)^[k] (dir s num)) n))^[j] (dir s num) = (fat s)^[j] (dir s num) := by
      intro j hj
      refine iter_setFat s _ n _ j (fun i hi => ?_)
      have h1 := ChainLen_inj s _ _ hk i k (by omega) (by omega)
      have h2 := hlt i
      have h3 := hlt k
      omega
    have hlast : (fat (setFat s ((fat s)^[k] (dir s num)) n))^[k + 1] (dir s num) = n := by
      rw [Function.iterate_succ_apply', hpre k (le_refl _), fat_setFat, if_pos rfl, hnmod]
    have hend : (fat (setFat s ((fat s)^[k] (dir s num)) n))^[k + 1 + 1] (dir s num) = 255 := by
      rw [Function.iterate_succ_apply', hlast, fat_setFat, if_neg, hfat]
      have h3 := hlt k
      omega
    have hfs : fat s ((fat s)^[k] (dir s num)) = 255 := by
      have := hk.1
      rwa [Function.iterate_succ_apply'] at this
    refine ⟨setFat s ((fat s)^[k] (dir s num)) n, fun fuel hf => ?_, ⟨hend, fun j hj => ?_⟩,
      fun j hj => hpre j (by omega), hlast, fun h => absurd h hd,
      fun _ => ⟨fun i => rfl, ?_, fun c hc hne => ?_⟩, ?_⟩
    · simp only [append_fat, hd, if_false]
      rw [append_fat_loop_eq s k _ fuel hk (by omega)]
    · show (fat (setFat s ((fat s)^[k] (dir s num)) n))^[j] (dir s num) ≠ 255
      rcases Nat.lt_or_ge j (k + 1) with h | h
      · rw [hpre j (by omega)]; exact hk.2 j h
      · have : j = k + 1 := by omega
        subst this
        rw [hlast]; omega
    · show fat (setFat s ((fat s)^[k] (dir s num)) n) ((fat s)^[k + 1 - 1] (dir s num)) ≠
        fat s ((fat s)^[k + 1 - 1] (dir s num))
      rw [Nat.add_sub_cancel, fat_setFat, if_pos rfl, hfs, hnmod]; omega
    · rw [Nat.add_sub_cancel] at hne
      rw [fat_setFat, if_neg]
      have h3 := hlt k
      omega
    · intro g l hg hne hl j hj
      show (fat (setFat s ((fat s)^[k] (dir s num)) n))^[j] (dir s g) = (fat s)^[j] (dir s g)
      refine iter_setFat s _ n _ j (fun i hi => ?_)
      have h2 := iter_lt s _ (dir_lt s g) i
      have h3 := hlt k
      intro heq
      have heq2 : (fat s)^[i] (dir s g) = (fat s)^[k] (dir s num) := by omega
      have hin1 := inChain_of_lt s g l i hl (by omega)
      have hin2 := inChain_of_lt s num (k + 1) k hk (by omega)
      rw [heq2] at hin1
      exact hne (hwf.disjoint g num _ hg (by omega) hin1 hin2)

/-! ## More on chains and on the loop of `find_free_sector` -/

theorem inChain_lt (s : FS) (f k c : Nat) (hk : ChainLen s (dir s f) k) (h : InChain s f c) :
    ∃ j, j < k ∧ (fat s)^[j] (dir s f) = c := by
  obtain ⟨j, hj, hne⟩ := h
  refine ⟨j, ?_, hj⟩
  rcases Nat.lt_or_ge j k with hlt | hge
  · exact hlt
  · exact absurd hk.1 (hne k hge)

theorem find_free_sector_loop_step (s : FS) (n fuel i r : Nat) (hi : i < 255)
    (hls : last_sector n s (dir s i) = some r) (hr : r ≠ 255) :
    find_free_sector_loop n (fuel + 1) s i 255 = find_free_sector_loop n fuel s (i + 1) 255 := by
  have hlt := last_sector_lt s n _ r hls
  have hfs : (if r > 255 then r else 255) = 255 := by
    rw [if_neg]; omega
  have hi1 : (i + 1) % 256 = i + 1 := Nat.mod_eq_of_lt (by omega)
  simp only [find_free_sector_loop, hls, hr, if_false, hfs, hi1]

theorem find_free_sector_loop_first (s : FS) (n i : Nat) (hi : i ≤ 255)
    (hstop : last_sector n s (dir s i) = some 255)
    (hgo : ∀ j, j < i → ∃ r, r ≠ 255 ∧ last_sector n s (dir s j) = some r) :
    ∀ (d i0 fuel : Nat), i0 + d = i →
      (d < fuel → find_free_sector_loop n fuel s i0 255 = some 0) ∧
      (fuel ≤ d → find_free_sector_loop n fuel s i0 255 = none) := by
  intro d
  induction d with
  | zero =>
    intro i0 fuel h0
    have : i0 = i := by omega
    subst this
    constructor
    · intro hf
      obtain ⟨fuel, rfl⟩ : ∃ m, fuel = m + 1 := ⟨fuel - 1, by omega⟩
      simp [find_free_sector_loop, hstop]
    · intro hf
      have : fuel = 0 := by omega
      subst this
      rfl
  | succ d ih =>
    intro i0 fuel h0
    obtain ⟨r, hr, hls⟩ := hgo i0 (by omega)
    cases fuel with
    | zero => exact ⟨fun h => by omega, fun _ => rfl⟩
    | succ fuel =>
      rw [find_free_sector_loop_step s n fuel i0 r (by omega) hls hr]
      have := ih (i0 + 1) fuel (by omega)
      exact ⟨fun h => this.1 (by omega), fun h => this.2 (by omega)⟩

/-! ## `eDisk_WriteSector` with the recording driver -/

theorem or_shift (a b k : Nat) (ha : a < 2 ^ k) : a ||| (b <<< k) = a + b * 2 ^ k := by
  rw [Nat.shiftLeft_eq, Nat.lor_comm, Nat.mul_comm b, ← Nat.mul_add_lt_is_or ha, Nat.add_comm]

/-- The word built from four bytes is their little-endian sum. -/
theorem eDisk_WriteSector_word_eq (buf : Nat → Nat) (i : Nat) :
    eDisk_WriteSector_word buf i 4 =
      buf i % 256 + buf (i + 1) % 256 * 2 ^ 8 + buf (i + 2) % 256 * 2 ^ 16 +
        buf (i + 3) % 256 * 2 ^ 24 := by
  have h0 : buf i % 256 < 256 := Nat.mod_lt _ (by decide)
  have h1 : buf (i + 1) % 256 < 256 := Nat.mod_lt _ (by decide)
  have h2 : buf (i + 2) % 256 < 256 := Nat.mod_lt _ (by decide)
  have h3 : buf (i + 3) % 256 < 256 := Nat.mod_lt _ (by decide)
  have e1 : eDisk_WriteSector_word buf i 1 = buf i % 256 := by
    simp only [eDisk_WriteSector_word, Nat.zero_mul, Nat.shiftLeft_zero, Nat.zero_or,
      Nat.add_zero]
    exact Nat.mod_eq_of_lt (by omega)
  have e2 : eDisk_WriteSector_word buf i 2 = buf i % 256 + buf (i + 1) % 256 * 2 ^ 8 := by
    show (eDisk_WriteSector_word buf i 1 ||| ((buf (i + 1) % 256) <<< (1 * 8))) % 2 ^ 32 = _
    rw [e1, or_shift _ _ _ (by omega)]
    exact Nat.mod_eq_of_lt (by omega)
  have e3 : eDisk_WriteSector_word buf i 3 =
      buf i % 256 + buf (i + 1) % 256 * 2 ^ 8 + buf (i + 2) % 256 * 2 ^ 16 := by
    show (eDisk_WriteSector_word buf i 2 ||| ((buf (i + 2) % 256) <<< (2 * 8))) % 2 ^ 32 = _
    rw [e2, or_shift _ _ _ (by omega)]
    exact Nat.mod_eq_of_lt (by omega)
  show (eDisk_WriteSector_word buf i 3 ||| ((buf (i + 3) % 256) <<< (3 * 8))) % 2 ^ 32 = _
  rw [e3, or_shift _ _ _ (by omega)]
  exact Nat.mod_eq_of_lt (by omega)

theorem eDisk_calls_succ (buf : Nat → Nat) (n w : Nat) :
    eDisk_calls buf n (w + 1) = eDisk_calls buf n w ++ [eDisk_call buf n w] := by
  simp [eDisk_calls, List.range_succ]

theorem eDisk_calls_get (buf : Nat → Nat) (n m w : Nat) (hw : w < m) :
    (eDisk_calls buf n m)[w]? = some (eDisk_call buf n w) := by
  simp [eDisk_calls, List.getElem?_map, List.getElem?_range hw]

theorem eDisk_loop_step (res : List (Nat × Nat) → Nat → Nat → Nat) (buf : Nat → Nat)
    (n k w : Nat) :
    eDisk_WriteSector_loop (Flash_Write_rec res) buf
        ((Disk_Start_Address + (n % 256) * 512) % 2 ^ 32) (k + 1) (4 * w) (eDisk_calls buf n w) =
      if eDisk_result res buf n w ≠ 0 then (eDisk_calls buf n (w + 1), 1)
      else eDisk_WriteSector_loop (Flash_Write_rec res) buf
        ((Disk_Start_Address + (n % 256) * 512) % 2 ^ 32) k (4 * (w + 1))
        (eDisk_calls buf n (w + 1)) := by
  rw [eDisk_calls_succ]
  rfl

theorem eDisk_loop_rec (res : List (Nat × Nat) → Nat → Nat → Nat) (buf : Nat → Nat) (n : Nat) :
    ∀ (k w0 : Nat), w0 + k = 128 →
      ((∀ w, w0 ≤ w → w < 128 → eDisk_result res buf n w = 0) →
        eDisk_WriteSector_loop (Flash_Write_rec res) buf
          ((Disk_Start_Address + (n % 256) * 512) % 2 ^ 32) k (4 * w0) (eDisk_calls buf n w0) =
          (eDisk_calls buf n 128, 0)) ∧
      (∀ w, w0 ≤ w → w < 128 → eDisk_result res buf n w ≠ 0 →
        (∀ v, w0 ≤ v → v < w → eDisk_result res buf n v = 0) →
        eDisk_WriteSector_loop (Flash_Write_rec res) buf
          ((Disk_Start_Address + (n % 256) * 512) % 2 ^ 32) k (4 * w0) (eDisk_calls buf n w0) =
          (eDisk_calls buf n (w + 1), 1)) := by
  intro k
  induction k with
  | zero =>
    intro w0 h0
    have : w0 = 128 := by omega
    subst this
    exact ⟨fun _ => rfl, fun w h1 h2 => by omega⟩
  | succ k ih =>
    intro w0 h0
    have hrec := ih (w0 + 1) (by omega)
    constructor
    · intro hall
      rw [eDisk_loop_step, if_neg (by rw [hall w0 (le_refl _) (by omega)]; simp)]
      exact hrec.1 (fun w h1 h2 => hall w (by omega) h2)
    · intro w h1 h2 hbad hgood
      rw [eDisk_loop_step]
      rcases Nat.eq_or_lt_of_le h1 with heq | hlt
      · subst heq
        rw [if_pos hbad]
      · rw [if_neg (by rw [hgood w0 (le_refl _) hlt]; simp)]
        exact hrec.2 w (by omega) h2 hbad (fun v hv1 hv2 => hgood v (by omega) hv2)

theorem eDisk_WriteSector_rec (res : List (Nat × Nat) → Nat → Nat → Nat) (buf : Nat → Nat)
    (n : Nat) :
    ((∀ w, w < 128 → eDisk_result res buf n w = 0) →
      eDisk_WriteSector (Flash_Write_rec res) buf n [] = (eDisk_calls buf n 128, 0)) ∧
    (∀ w, w < 128 → eDisk_result res buf n w ≠ 0 →
      (∀ v, v < w → eDisk_result res buf n v = 0) →
      eDisk_WriteSector (Flash_Write_rec res) buf n [] = (eDisk_calls buf n (w + 1), 1)) := by
  have h := eDisk_loop_rec res buf n 128 0 (by omega)
  exact ⟨fun hall => h.1 (fun w _ hw => hall w hw),
    fun w hw hbad hgood => h.2 w (Nat.zero_le _) hw hbad (fun v _ hv => hgood v hv)⟩

theorem eDisk_first_fail (res : List (Nat × Nat) → Nat → Nat → Nat) (buf : Nat → Nat) (n : Nat)
    (h : ¬ ∀ w, w < 128 → eDisk_result res buf n w = 0) :
    ∃ w, w < 128 ∧ eDisk_result res buf n w ≠ 0 ∧ ∀ v, v < w → eDisk_result res buf n v = 0 := by
  have hex : ∃ w, w < 128 ∧ eDisk_result res buf n w ≠ 0 := by
    by_contra hno
    exact h (fun w hw => by
      by_contra hne
      exact hno ⟨w, hw, hne⟩)
  refine ⟨Nat.find hex, (Nat.find_spec hex).1, (Nat.find_spec hex).2, fun v hv => ?_⟩
  by_contra hne
  exact Nat.find_min hex hv ⟨by have := (Nat.find_spec hex).1; omega, hne⟩

/-! ## `OS_File_Format` with the recording driver -/

theorem OS_File_Format_loop_rec (res : List Nat → Nat → Nat) : ∀ (d k fuel : Nat)
    (log : List Nat), k + d = 129 → d < fuel →
    OS_File_Format_loop (Flash_Erase_rec res) fuel (0x20000 + 1024 * k) log =
      some (log ++ (List.range' k d).map (fun k => 0x20000 + 1024 * k)) := by
  intro d
  induction d with
  | zero =>
    intro k fuel log hk hf
    obtain ⟨fuel, rfl⟩ : ∃ m, fuel = m + 1 := ⟨fuel - 1, by omega⟩
    have : k = 129 := by omega
    subst this
    simp [OS_File_Format_loop]
  | succ d ih =>
    intro k fuel log hk hf
    obtain ⟨fuel, rfl⟩ : ∃ m, fuel = m + 1 := ⟨fuel - 1, by omega⟩
    have hle : 0x20000 + 1024 * k ≤ 0x00040000 := by omega
    have hnext : (0x20000 + 1024 * k + 1024) % 2 ^ 32 = 0x20000 + 1024 * (k + 1) := by omega
    simp only [OS_File_Format_loop, hle, if_true, hnext, Flash_Erase_rec]
    rw [ih (k + 1) fuel _ (by omega) (by omega)]
    simp [List.range'_succ]

/-! ## The invariant -/

theorem not_inChain_sentinel (s : FS) (f : Nat) : ¬ InChain s f 255 := by
  rintro ⟨j, hj, hne⟩
  exact hne j (le_refl _) hj

theorem Invariant_OS_FS_Init (s0 : FS) : Invariant (OS_FS_Init s0) where
  wf := WellFormed_OS_FS_Init s0
  nodup := fun _ k a b _ hk hab hb => ChainLen_inj _ _ k hk a b hab hb
  free_fat := fun c _ _ => fat_OS_FS_Init s0 c
  fat_reserved := fat_OS_FS_Init s0 255

theorem Invariant_one_sector : Invariant one_sector where
  wf := WellFormed_one_sector
  nodup := fun _ k a b _ hk hab hb => ChainLen_inj _ _ k hk a b hab hb
  free_fat := fun c _ _ => fat_one_sector c
  fat_reserved := fat_one_sector 255

theorem append_fat_keeps_invariant (s : FS) (num n : Nat) (hinv : Invariant s)
    (hnum : num < 255) (hn : n < 255) (hfree : ∀ f, f < 256 → ¬ InChain s f n) :
    ∃ t, (∀ fuel, 255 ≤ fuel → append_fat fuel s num n = some t) ∧ Invariant t := by
  obtain ⟨k, hk⟩ := hinv.wf.finite num (by omega)
  have hfat := hinv.free_fat n (by omega) hfree
  obtain ⟨t, happ, hch, hpre, hlast, hE, hNE, hoth⟩ :=
    append_fat_core s num n k hinv.wf hnum hn hfree hfat hk
  have hlen : ∀ g l, g < 256 → g ≠ num → ChainLen s (dir s g) l → ChainLen t (dir t g) l :=
    fun g l hg hne hl =>
      ⟨by rw [hoth g l hg hne hl l (le_refl _)]; exact hl.1,
        fun j hj => by rw [hoth g l hg hne hl j (by omega)]; exact hl.2 j hj⟩
  have hfwd : ∀ f c, f < 256 → InChain s f c → InChain t f c := by
    intro f c hf h
    by_cases hfn : f = num
    · subst hfn
      obtain ⟨j, hj, hjc⟩ := inChain_lt s f k c hk h
      rw [← hjc, ← hpre j hj]
      exact inChain_of_lt t f (k + 1) j hch (by omega)
    · obtain ⟨l, hl⟩ := hinv.wf.finite f hf
      obtain ⟨j, hj, hjc⟩ := inChain_lt s f l c hl h
      rw [← hjc, ← hoth f l hf hfn hl j (by omega)]
      exact inChain_of_lt t f l j (hlen f l hf hfn hl) hj
  have hbwd : ∀ f c, f < 256 → InChain t f c → InChain s f c ∨ (f = num ∧ c = n) := by
    intro f c hf h
    by_cases hfn : f = num
    · subst hfn
      obtain ⟨j, hj, hjc⟩ := inChain_lt t f (k + 1) c hch h
      rcases Nat.lt_or_ge j k with hlt | hge
      · left
        rw [← hjc, hpre j hlt]
        exact inChain_of_lt s f k j hk hlt
      · right
        have : j = k := by omega
        subst this
        exact ⟨rfl, by rw [← hjc, hlast]⟩
    · left
      obtain ⟨l, hl⟩ := hinv.wf.finite f hf
      obtain ⟨j, hj, hjc⟩ := inChain_lt t f l c (hlen f l hf hfn hl) h
      rw [← hjc, hoth f l hf hfn hl j (by omega)]
      exact inChain_of_lt s f l j hl hj
  have hd255 : dir t 255 = 255 := by
    by_cases hd : dir s num = 255
    · rw [(hE hd).2.1 255 (by omega) (by omega)]; exact hinv.wf.reserved
    · rw [(hNE hd).1 255]; exact hinv.wf.reserved
  have hfree_t : ∀ c, c < 256 → (∀ f, f < 256 → ¬ InChain t f c) → fat t c = 255 := by
    intro c hc hno
    have hs : fat s c = 255 :=
      hinv.free_fat c hc (fun f hf h => hno f hf (hfwd f c hf h))
    by_cases hd : dir s num = 255
    · rw [(hE hd).2.2 c]; exact hs
    · have hk0 : k ≠ 0 := fun e => hd ((ChainLen_zero_iff _ _).1 (e ▸ hk))
      rw [(hNE hd).2.2 c hc (fun e => ?_)]
      · exact hs
      · refine hno num (by omega) (hfwd num c (by omega) ?_)
        rw [e]
        exact inChain_of_lt s num k (k - 1) hk (by omega)
  refine ⟨t, happ, ⟨⟨fun f hf => ?_, fun f g c hf hg h1 h2 => ?_, hd255⟩,
    fun _ l a b _ hl hab hb => ChainLen_inj _ _ l hl a b hab hb, hfree_t,
    hfree_t 255 (by omega) (fun f _ => not_inChain_sentinel t f)⟩⟩
  · by_cases hfn : f = num
    · rw [hfn]; exact ⟨k + 1, hch⟩
    · obtain ⟨l, hl⟩ := hinv.wf.finite f hf
      exact ⟨l, hlen f l hf hfn hl⟩
  · rcases hbwd f c hf h1 with a | ⟨ef, ec⟩
    · rcases hbwd g c hg h2 with b | ⟨_, ec2⟩
      · exact hinv.wf.disjoint f g c hf hg a b
      · exact absurd (ec2 ▸ a) (hfree f hf)
    · rcases hbwd g c hg h2 with b | ⟨eg, _⟩
      · exact absurd (ec ▸ b) (hfree g hg)
      · rw [ef, eg]

/-! ## The directory with no free slot -/

theorem dir_full_directory (f : Nat) (hf : f < 256) :
    dir full_directory f = if f < 255 then f else 255 := by
  unfold dir full_directory
  rw [Nat.mod_eq_of_lt hf]
  by_cases h : f < 255
  · simp only [h, if_true]; exact Nat.mod_eq_of_lt hf
  · simp [h]

theorem fat_full_directory (c : Nat) : fat full_directory c = 255 := rfl

theorem full_directory_taken (i : Nat) (hi : i < 255) : dir full_directory i ≠ 255 := by
  rw [dir_full_directory i (by omega), if_pos hi]; omega

theorem WellFormed_full_directory : WellFormed full_directory where
  finite := fun _ _ => flat_chain _ fat_full_directory _
  disjoint := fun f g c hf hg h1 h2 => by
    have e1 := flat_inChain _ fat_full_directory f c h1
    have e2 := flat_inChain _ fat_full_directory g c h2
    rw [dir_full_directory f hf] at e1
    rw [dir_full_directory g hg] at e2
    by_cases h1f : f < 255
    · by_cases h2g : g < 255
      · rw [if_pos h1f] at e1; rw [if_pos h2g] at e2
        rw [← e1.1, ← e2.1]
      · rw [if_neg h2g] at e2; exact absurd rfl e2.2
    · rw [if_neg h1f] at e1; exact absurd rfl e1.2
  reserved := by rw [dir_full_directory 255 (by omega)]; rfl

/-! ## The claims -/

/-- C1 (the code departs from the claim): after `OS_FS_Init` and
`append_fat(0, 0)` the metadata is well formed, sector 0 is allocated and is
the only allocated sector, so the largest address in use is m = 0 < 254; yet
`find_free_sector()` returns 0 and not m + 1 = 1.  On the empty state made by
`OS_FS_Init` it returns 0 as well. -/
theorem find_free_sector_after_first_append :
    append_fat 256 (OS_FS_Init RAM_zero) 0 0 = some one_sector ∧ WellFormed one_sector ∧
      InChain one_sector 0 0 ∧ (∀ f c, InChain one_sector f c → c = 0) ∧
      find_free_sector 256 one_sector = some 0 ∧
      find_free_sector 256 (OS_FS_Init RAM_zero) = some 0 := by
  refine ⟨?_, WellFormed_one_sector, ?_, fun f c h => (inChain_one_sector f c h).2, ?_, ?_⟩
  · simp [append_fat, dir_OS_FS_Init, one_sector]
  · refine ⟨0, by rw [Function.iterate_zero_apply, dir_one_sector]; rfl, fun i hi => ?_⟩
    have : i = 0 := by omega
    subst this
    rw [Function.iterate_zero_apply, dir_one_sector]; decide
  · exact find_free_sector_some _ WellFormed_one_sector.finite WellFormed_one_sector.reserved
      256 (le_refl _)
  · exact find_free_sector_some _ (WellFormed_OS_FS_Init _).finite
      (WellFormed_OS_FS_Init _).reserved 256 (le_refl _)

/-- C2 (the code departs from the claim): in the session that starts with
`OS_FS_Init` and runs two allocation rounds, `find_free_sector()` returns 0
both times, whether the two rounds are for the same file (0, 0) or for
different files (0, 1): the sequence 0, 0 is not strictly increasing and
sector 0 is assigned twice. -/
theorem alloc_session_repeats_sector :
    alloc_session 256 [0, 0] (OS_FS_Init RAM_zero) = some [0, 0] ∧
    alloc_session 256 [0, 1] (OS_FS_Init RAM_zero) = some [0, 0] := by
  constructor <;> decide!

/-- C3 (the code departs from the claim): on the well-formed state in which
file 0 owns the chain 0, 1, ..., 254, so that every usable sector is in use,
`find_free_sector()` returns 0 and not the disk-full sentinel 255, and
`OS_File_New()` returns 1 and not 255. -/
theorem find_free_sector_full_disk :
    WellFormed full_disk ∧ (∀ c, c ≤ 254 → InChain full_disk 0 c) ∧
    find_free_sector 256 full_disk = some 0 ∧ OS_File_New 256 full_disk = some 1 := by
  refine ⟨WellFormed_full_disk, fun c hc => ?_, ?_, ?_⟩
  · refine ⟨c, ?_, fun i hi => ?_⟩
    · rw [dir_full_disk]; exact iter_full_disk c (by omega)
    · rw [dir_full_disk]
      show (fat full_disk)^[i] 0 ≠ 255
      rw [iter_full_disk i (by omega)]; omega
  · exact find_free_sector_some _ WellFormed_full_disk.finite WellFormed_full_disk.reserved
      256 (le_refl _)
  · refine OS_File_New_eq full_disk 1 (by omega) WellFormed_full_disk.finite
      WellFormed_full_disk.reserved (fun i hi => ?_) ?_ 256 (le_refl _)
    · have : i = 0 := by omega
      subst this
      rw [dir_full_disk]; decide
    · rw [dir_full_disk]; rfl

/-- C4: on every well-formed state `find_free_sector()` and `OS_File_New()`
return (for every fuel from 256 on); `OS_File_New()` returns 255 exactly when
`find_free_sector()` returned 255 or no slot `i` in 0..254 has
`RAM_Directory[i] == 255`; otherwise it returns the least such slot.  In
particular it returns 255 when all slots 0..254 hold a head sector. -/
theorem OS_File_New_spec (s : FS) (hwf : WellFormed s) :
    ∃ r v, (∀ fuel, 256 ≤ fuel → find_free_sector fuel s = some r ∧ OS_File_New fuel s = some v) ∧
      (v = 255 ↔ (r = 255 ∨ ¬ ∃ i, i < 255 ∧ dir s i = 255)) ∧
      (v ≠ 255 → v < 255 ∧ dir s v = 255 ∧ ∀ j, j < v → dir s j ≠ 255) ∧
      ((∀ i, i < 255 → dir s i ≠ 255) → v = 255) := by
  have hffs := find_free_sector_some s hwf.finite hwf.reserved
  refine ⟨0, OS_File_New_loop s 255 0, fun fuel hf => ⟨hffs fuel hf, ?_⟩, ?_, ?_, ?_⟩
  · simp [OS_File_New, hffs fuel hf]
  · rcases OS_File_New_loop_spec s 255 0 (by omega) with ⟨h1, h2⟩ | ⟨_, h2, h3, _⟩
    · refine ⟨fun _ => Or.inr ?_, fun _ => h1⟩
      rintro ⟨i, hi, hd⟩
      exact h2 i (Nat.zero_le _) hi hd
    · refine ⟨fun h => by omega, fun h => ?_⟩
      rcases h with h | h
      · omega
      · exact absurd ⟨_, h2, h3⟩ h
  · intro hv
    rcases OS_File_New_loop_spec s 255 0 (by omega) with ⟨h1, _⟩ | ⟨_, h2, h3, h4⟩
    · exact absurd h1 hv
    · exact ⟨h2, h3, fun j hj => h4 j (Nat.zero_le _) hj⟩
  · intro hall
    rcases OS_File_New_loop_spec s 255 0 (by omega) with ⟨h1, _⟩ | ⟨_, h2, h3, _⟩
    · exact h1
    · exact absurd h3 (hall _ h2)

/-- C4 at the state in which slots 0..254 all hold a head sector, where the
call returns 255, and at the state in which only slot 0 is taken, where it
returns the least free slot 1. -/
theorem OS_File_New_spec_witness :
    WellFormed full_directory ∧ (∀ i, i < 255 → dir full_directory i ≠ 255) ∧
    (∃ r v, (∀ fuel, 256 ≤ fuel → find_free_sector fuel full_directory = some r ∧
        OS_File_New fuel full_directory = some v) ∧
      (v = 255 ↔ (r = 255 ∨ ¬ ∃ i, i < 255 ∧ dir full_directory i = 255)) ∧
      (v ≠ 255 → v < 255 ∧ dir full_directory v = 255 ∧
        ∀ j, j < v → dir full_directory j ≠ 255) ∧
      ((∀ i, i < 255 → dir full_directory i ≠ 255) → v = 255)) ∧
    (∀ fuel, 256 ≤ fuel → OS_File_New fuel full_directory = some 255) ∧
    WellFormed one_sector ∧ dir one_sector 0 ≠ 255 ∧ dir one_sector 1 = 255 ∧
    (∀ fuel, 256 ≤ fuel → OS_File_New fuel one_sector = some 1) := by
  have hd0 : dir one_sector 0 = 0 := by rw [dir_one_sector]; rfl
  have hd1 : dir one_sector 1 = 255 := by rw [dir_one_sector]; rfl
  refine ⟨WellFormed_full_directory, full_directory_taken,
    OS_File_New_spec full_directory WellFormed_full_directory, ?_,
    WellFormed_one_sector, by rw [hd0]; decide, hd1, ?_⟩
  · obtain ⟨r, v, h1, _, _, h4⟩ := OS_File_New_spec full_directory WellFormed_full_directory
    intro fuel hf
    rw [(h1 fuel hf).2, h4 full_directory_taken]
  · obtain ⟨r, v, h1, h2, h3, _⟩ := OS_File_New_spec one_sector WellFormed_one_sector
    have hr : r = 0 := by
      have h := (h1 256 (le_refl _)).1
      rw [find_free_sector_some _ WellFormed_one_sector.finite WellFormed_one_sector.reserved
        256 (le_refl _)] at h
      exact (Option.some.inj h).symm
    have hv : v ≠ 255 := by
      intro e
      rcases h2.1 e with h | h
      · omega
      · exact h ⟨1, by decide, hd1⟩
    obtain ⟨_, hdv, hmin⟩ := h3 hv
    have hv0 : v ≠ 0 := by
      intro e
      rw [e, hd0] at hdv
      exact absurd hdv (by decide)
    have hv1 : v = 1 := by
      rcases Nat.lt_or_ge 1 v with h | h
      · exact absurd hd1 (hmin 1 h)
      · omega
    intro fuel hf
    rw [(h1 fuel hf).2, hv1]

/-- C5 (the claim fails as stated): after `OS_FS_Init`, two calls of
`OS_File_New()` made one after the other both return 0, so the identifiers
are not pairwise distinct. -/
theorem OS_File_New_twice_same :
    OS_File_New_calls 256 (OS_FS_Init RAM_zero) 2 = [some 0, some 0] ∧
    ¬ (OS_File_New_calls 256 (OS_FS_Init RAM_zero) 2).Nodup := by
  have h : OS_File_New_calls 256 (OS_FS_Init RAM_zero) 2 = [some 0, some 0] := by
    have h0 : OS_File_New 256 (OS_FS_Init RAM_zero) = some 0 :=
      OS_File_New_eq _ 0 (by omega) (WellFormed_OS_FS_Init _).finite
        (WellFormed_OS_FS_Init _).reserved (fun i hi => by omega) (dir_OS_FS_Init _ 0)
        256 (le_refl _)
    simp [OS_File_New_calls, h0]
  exact ⟨h, by rw [h]; decide⟩

/-- C5 (amended): after `OS_FS_Init` the first call of `OS_File_New()` returns
0; when every returned file is given its first sector by `append_fat` before
the next call, `n <= 255` calls return 0, 1, ..., n-1, which are pairwise
distinct. -/
theorem create_rounds_distinct (s0 : FS) (secs : List Nat) (hlen : secs.length ≤ 255)
    (hsec : ∀ a ∈ secs, a % 256 ≠ 255) :
    OS_File_New 256 (OS_FS_Init s0) = some 0 ∧
    create_rounds 256 secs (OS_FS_Init s0) = some (List.range secs.length) ∧
    (List.range secs.length).Nodup := by
  refine ⟨?_, ?_, List.nodup_range _⟩
  · exact OS_File_New_eq _ 0 (by omega) (WellFormed_OS_FS_Init _).finite
      (WellFormed_OS_FS_Init _).reserved (fun i hi => by omega) (dir_OS_FS_Init _ 0)
      256 (le_refl _)
  · rw [List.range_eq_range']
    exact create_rounds_from secs (OS_FS_Init s0) 0 (fat_OS_FS_Init s0) (fun i hi => by omega)
      (fun i _ _ => dir_OS_FS_Init s0 i) (by omega) hsec

/-- C5 (amended) for three files that each receive sector 0. -/
theorem create_rounds_distinct_witness :
    [0, 0, 0].length ≤ 255 ∧ (∀ a ∈ [0, 0, 0], a % 256 ≠ 255) ∧
    OS_File_New 256 (OS_FS_Init RAM_zero) = some 0 ∧
    create_rounds 256 [0, 0, 0] (OS_FS_Init RAM_zero) = some (List.range [0, 0, 0].length) ∧
    (List.range [0, 0, 0].length).Nodup :=
  ⟨by decide, by decide, create_rounds_distinct RAM_zero [0, 0, 0] (by decide) (by decide)⟩

/-- C6: when the chain of file `num` ends at the sentinel after exactly `k`
sectors (head included; `k = 0` for an empty slot), `OS_File_Size(num)` returns
0 if `RAM_Directory[num] == 255` and returns `k` in every case; the `k`
sectors are pairwise different and `k <= 255`, so the 8-bit counter does not
wrap. -/
theorem OS_File_Size_spec (s : FS) (num k : Nat) (hk : ChainLen s (dir s num) k) :
    (dir s num = 255 → ∀ fuel, OS_File_Size fuel s num = some 0) ∧
    (∀ fuel, 255 ≤ fuel → OS_File_Size fuel s num = some k) ∧
    (∀ a b, a < b → b < k → (fat s)^[a] (dir s num) ≠ (fat s)^[b] (dir s num)) ∧
    k ≤ 255 :=
  ⟨fun h fuel => by simp [OS_File_Size, h],
    fun fuel hf => OS_File_Size_eq s num k hk fuel hf,
    fun a b hab hb => ChainLen_inj s _ k hk a b hab hb,
    ChainLen_le s _ k (dir_lt _ _) hk⟩

/-- C6 on the disk whose file 0 has the longest possible chain, 255 sectors. -/
theorem OS_File_Size_spec_witness :
    ChainLen full_disk (dir full_disk 0) 255 ∧
    (dir full_disk 0 = 255 → ∀ fuel, OS_File_Size fuel full_disk 0 = some 0) ∧
    (∀ fuel, 255 ≤ fuel → OS_File_Size fuel full_disk 0 = some 255) ∧
    (∀ a b, a < b → b < 255 →
      (fat full_disk)^[a] (dir full_disk 0) ≠ (fat full_disk)^[b] (dir full_disk 0)) ∧
    255 ≤ 255 :=
  ⟨chain_full_disk, OS_File_Size_spec full_disk 0 255 chain_full_disk⟩

/-- C7: on a well-formed state, for a file number `num` in 0..254 whose chain
has `k` sectors and a free sector `n` (at most 254, on no chain, with
`RAM_FAT[n] == 255`), `append_fat(num, n)` returns and leaves a state in
which the chain of `num` is its previous chain followed by `n`, so that
`OS_File_Size(num)` goes from `k` to `k + 1` and `last_sector(num)` is `n`;
exactly one table entry differs (`RAM_Directory[num]` if the file had no
head, otherwise the `RAM_FAT` entry of the old tail); the chain and the size
of every other file are as before. -/
theorem append_fat_frame (s : FS) (num n k : Nat) (hwf : WellFormed s) (hnum : num < 255)
    (hn : n < 255) (hfree : ∀ f, f < 256 → ¬ InChain s f n) (hfat : fat s n = 255)
    (hk : ChainLen s (dir s num) k) :
    ∃ t, (∀ fuel, 255 ≤ fuel → append_fat fuel s num n = some t) ∧
      ChainLen t (dir t num) (k + 1) ∧
      (∀ j, j < k → (fat t)^[j] (dir t num) = (fat s)^[j] (dir s num)) ∧
      (fat t)^[k] (dir t num) = n ∧
      (∀ fuel, 255 ≤ fuel → OS_File_Size fuel s num = some k ∧
        OS_File_Size fuel t num = some (k + 1) ∧ last_sector fuel t num = some n) ∧
      (dir s num = 255 → dir t num ≠ dir s num ∧
        (∀ i, i < 256 → i ≠ num → dir t i = dir s i) ∧ ∀ c, fat t c = fat s c) ∧
      (dir s num ≠ 255 → (∀ i, dir t i = dir s i) ∧
        fat t ((fat s)^[k - 1] (dir s num)) ≠ fat s ((fat s)^[k - 1] (dir s num)) ∧
        ∀ c, c < 256 → c ≠ (fat s)^[k - 1] (dir s num) → fat t c = fat s c) ∧
      (∀ g l, g < 256 → g ≠ num → ChainLen s (dir s g) l →
        ChainLen t (dir t g) l ∧
        (∀ j, j < l → (fat t)^[j] (dir t g) = (fat s)^[j] (dir s g)) ∧
        ∀ fuel, 255 ≤ fuel → OS_File_Size fuel t g = some l ∧ OS_File_Size fuel s g = some l) := by
  obtain ⟨t, happ, hch, hpre, hlast, hE, hNE, hoth⟩ :=
    append_fat_core s num n k hwf hnum hn hfree hfat hk
  refine ⟨t, happ, hch, hpre, hlast, fun fuel hf => ⟨OS_File_Size_eq s num k hk fuel hf,
    OS_File_Size_eq t num (k + 1) hch fuel hf, ?_⟩, hE, hNE, fun g l hg hne hl => ?_⟩
  · rw [last_sector_eq t num k (by omega) hch fuel hf, hlast]
  · have hcl : ChainLen t (dir t g) l :=
      ⟨by rw [hoth g l hg hne hl l (le_refl _)]; exact hl.1,
        fun j hj => by rw [hoth g l hg hne hl j (by omega)]; exact hl.2 j hj⟩
    exact ⟨hcl, fun j hj => hoth g l hg hne hl j (by omega),
      fun fuel hf => ⟨OS_File_Size_eq t g l hcl fuel hf, OS_File_Size_eq s g l hl fuel hf⟩⟩

/-- C7 for file 0 owning sector 0, to which the free sector 1 is appended. -/
theorem append_fat_frame_witness :
    WellFormed one_sector ∧ 0 < 255 ∧ 1 < 255 ∧ (∀ f, f < 256 → ¬ InChain one_sector f 1) ∧
    fat one_sector 1 = 255 ∧ ChainLen one_sector (dir one_sector 0) 1 ∧
    ∃ t, (∀ fuel, 255 ≤ fuel → append_fat fuel one_sector 0 1 = some t) ∧
      ChainLen t (dir t 0) (1 + 1) ∧
      (∀ j, j < 1 → (fat t)^[j] (dir t 0) = (fat one_sector)^[j] (dir one_sector 0)) ∧
      (fat t)^[1] (dir t 0) = 1 ∧
      (∀ fuel, 255 ≤ fuel → OS_File_Size fuel one_sector 0 = some 1 ∧
        OS_File_Size fuel t 0 = some (1 + 1) ∧ last_sector fuel t 0 = some 1) ∧
      (dir one_sector 0 = 255 → dir t 0 ≠ dir one_sector 0 ∧
        (∀ i, i < 256 → i ≠ 0 → dir t i = dir one_sector i) ∧
        ∀ c, fat t c = fat one_sector c) ∧
      (dir one_sector 0 ≠ 255 → (∀ i, dir t i = dir one_sector i) ∧
        fat t ((fat one_sector)^[1 - 1] (dir one_sector 0)) ≠
          fat one_sector ((fat one_sector)^[1 - 1] (dir one_sector 0)) ∧
        ∀ c, c < 256 → c ≠ (fat one_sector)^[1 - 1] (dir one_sector 0) →
          fat t c = fat one_sector c) ∧
      (∀ g l, g < 256 → g ≠ 0 → ChainLen one_sector (dir one_sector g) l →
        ChainLen t (dir t g) l ∧
        (∀ j, j < l → (fat t)^[j] (dir t g) = (fat one_sector)^[j] (dir one_sector g)) ∧
        ∀ fuel, 255 ≤ fuel →
          OS_File_Size fuel t g = some l ∧ OS_File_Size fuel one_sector g = some l) :=
  ⟨WellFormed_one_sector, by decide, by decide,
    fun f _ h => absurd (inChain_one_sector f 1 h).2 (by decide),
    fat_one_sector 1, chain_one_sector,
    append_fat_frame one_sector 0 1 1 WellFormed_one_sector (by decide) (by decide)
      (fun f _ h => absurd (inChain_one_sector f 1 h).2 (by decide))
      (fat_one_sector 1) chain_one_sector⟩

/-- Where `OS_File_Read` fails and where its copy loop starts: when the chain
of file `num` has exactly `k` sectors and `location` is in 0..255,
`OS_File_Size(num)` is `k`; `OS_File_Read(num, location, buf)` returns 255
exactly when `RAM_Directory[num] == 255` or `location >= k`; otherwise it
returns 0 and its copy loop is started at the base address of the sector
reached after `location` links from the head. -/
theorem OS_File_Read_spec (s : FS) (mem : Nat → Nat) (num location k : Nat) (buf : Nat → Nat)
    (hloc : location < 256) (hk : ChainLen s (dir s num) k) :
    (∀ fuel, 255 ≤ fuel → OS_File_Size fuel s num = some k) ∧
    ((OS_File_Read s mem num location buf).1 = 255 ↔ (dir s num = 255 ∨ k ≤ location)) ∧
    (¬ (dir s num = 255 ∨ k ≤ location) →
      OS_File_Read s mem num location buf =
        (0, OS_File_Read_words mem
          ((Disk_Start_Address + (fat s)^[location] (dir s num) * 512) % 2 ^ 32) buf 128)) := by
  have hmod : location % 256 = location := Nat.mod_eq_of_lt hloc
  refine ⟨fun fuel hf => OS_File_Size_eq s num k hk fuel hf, ?_, ?_⟩
  · by_cases hd : dir s num = 255
    · simp [OS_File_Read, hd]
    · cases k with
      | zero => exact absurd ((ChainLen_zero_iff _ _).1 hk) hd
      | succ k =>
        have hsp := OS_File_Read_loop_spec s location _ k hk
        by_cases hl : location ≤ k
        · simp only [OS_File_Read, hd, if_false, hmod, hsp.1 hl, false_or]
          constructor
          · intro h; simp at h
          · intro h; omega
        · simp only [OS_File_Read, hd, if_false, hmod, hsp.2 (by omega), false_or]
          exact ⟨fun _ => by omega, fun _ => trivial⟩
  · intro hnot
    have hd : dir s num ≠ 255 := fun h => hnot (Or.inl h)
    have hl : location < k := by
      rcases Nat.lt_or_ge location k with h | h
      · exact h
      · exact absurd (Or.inr h) hnot
    cases k with
    | zero => omega
    | succ k =>
      have hsp := OS_File_Read_loop_spec s location _ k hk
      simp only [OS_File_Read, hd, if_false, hmod, hsp.1 (by omega)]

/-- The statement above on the disk whose file 0 owns sectors 0..254, read at
index 7. -/
theorem OS_File_Read_spec_witness :
    7 < 256 ∧ ChainLen full_disk (dir full_disk 0) 255 ∧
    (∀ fuel, 255 ≤ fuel → OS_File_Size fuel full_disk 0 = some 255) ∧
    ((OS_File_Read full_disk flash_erased 0 7 ramp).1 = 255 ↔
      (dir full_disk 0 = 255 ∨ 255 ≤ 7)) ∧
    (¬ (dir full_disk 0 = 255 ∨ 255 ≤ 7) →
      OS_File_Read full_disk flash_erased 0 7 ramp =
        (0, OS_File_Read_words flash_erased
          ((Disk_Start_Address + (fat full_disk)^[7] (dir full_disk 0) * 512) % 2 ^ 32)
          ramp 128)) :=
  ⟨by decide, chain_full_disk,
    OS_File_Read_spec full_disk flash_erased 0 7 255 ramp (by decide) chain_full_disk⟩

/-- C8 (the code departs from the claim): file 0 of `full_disk` has 255
sectors and the sector at index 7 of its chain is sector 7; on a flash in
which every word of sector `k` holds `k`, `OS_File_Read(0, 7, buf)` returns 0
and leaves `buf[0] == 7`, but `buf[128] == 8`, `buf[256] == 9` and
`buf[508] == 10`: the copy loop takes `phys_address[i]` with `i` stepping by 4
over a word pointer, so only the first 32 of the 128 words are read from the
located sector and the others from the three sectors behind it. -/
theorem OS_File_Read_outside_sector :
    ChainLen full_disk (dir full_disk 0) 255 ∧
    (fat full_disk)^[7] (dir full_disk 0) = 7 ∧
    (OS_File_Read full_disk sector_tag 0 7 (fun _ => 0)).1 = 0 ∧
    (OS_File_Read full_disk sector_tag 0 7 (fun _ => 0)).2 0 = 7 ∧
    (OS_File_Read full_disk sector_tag 0 7 (fun _ => 0)).2 124 = 7 ∧
    (OS_File_Read full_disk sector_tag 0 7 (fun _ => 0)).2 128 = 8 ∧
    (OS_File_Read full_disk sector_tag 0 7 (fun _ => 0)).2 256 = 9 ∧
    (OS_File_Read full_disk sector_tag 0 7 (fun _ => 0)).2 508 = 10 := by
  refine ⟨chain_full_disk, iter_full_disk 7 (by omega), ?_, ?_, ?_, ?_, ?_, ?_⟩ <;> decide!

/-- C9 (the code departs from the claim): sector 0 is the sector at index 0 of
file 0; `eDisk_WriteSector(ramp, 0)` returns 0 with every word stored at the
address given; then `OS_File_Read(0, 0, buf)` returns 0 but leaves
`buf[4] == 16` where the data written has `ramp[4] == 4`: the read loop takes
`phys_address[i]` with `i` stepping by 4 over a word pointer, that is the word
at byte offset `4 * i`, so `buf[4..7]` receives the bytes written from
`ramp[16..19]`. -/
theorem OS_File_Read_after_write :
    InChain one_sector 0 0 ∧
    (eDisk_WriteSector Flash_Write ramp 0 flash_erased).2 = 0 ∧
    (OS_File_Read one_sector (eDisk_WriteSector Flash_Write ramp 0 flash_erased).1 0 0
      (fun _ => 0)).1 = 0 ∧
    (OS_File_Read one_sector (eDisk_WriteSector Flash_Write ramp 0 flash_erased).1 0 0
      (fun _ => 0)).2 4 = 16 ∧
    ramp 4 = 4 := by
  refine ⟨⟨0, by rw [Function.iterate_zero_apply, dir_one_sector]; rfl, fun i hi => ?_⟩, ?_⟩
  · have : i = 0 := by omega
    subst this
    rw [Function.iterate_zero_apply, dir_one_sector]; decide
  · decide!

/-- C10 (the code departs from the claim): the body of `OS_File_Append` is
empty, so a call that hands back 0 leaves both tables as they were and
`OS_File_Size(num)` is what it was before the call, not one larger; right
after `OS_FS_Init` it is still 0. -/
theorem OS_File_Append_leaves_size (s : FS) (num fuel : Nat) (buf : Nat → Nat) :
    (OS_File_Append s num buf 0).2 = 0 ∧
    (OS_File_Append s num buf 0).1 = s ∧
    OS_File_Size fuel (OS_File_Append s num buf 0).1 num = OS_File_Size fuel s num ∧
    OS_File_Size fuel (OS_File_Append (OS_FS_Init s) num buf 0).1 num = some 0 :=
  ⟨rfl, rfl, rfl, by simp [OS_File_Append, OS_File_Size, dir_OS_FS_Init]⟩

/-- C15: after `OS_FS_Init()` every entry of `RAM_Directory` and of `RAM_FAT`
is the sentinel 255, whatever the tables held before, and `OS_File_Size(f)`
returns 0 for every file identifier `f`. -/
theorem OS_FS_Init_spec (s0 : FS) (f : Nat) :
    dir (OS_FS_Init s0) f = 255 ∧ fat (OS_FS_Init s0) f = 255 ∧
    ∀ fuel, OS_File_Size fuel (OS_FS_Init s0) f = some 0 :=
  ⟨dir_OS_FS_Init s0 f, fat_OS_FS_Init s0 f,
    fun fuel => by simp [OS_File_Size, dir_OS_FS_Init]⟩

/-- C17: for a file number `f` in 0..255 whose chain has exactly `k` sectors,
`last_sector(f)` returns 255 if `f == 255` or `RAM_Directory[f] == 255`;
otherwise it returns a sector `r` that lies on the chain of `f`, has
`RAM_FAT[r] == 255`, is the only sector of the chain with that property, and
is not 255. -/
theorem last_sector_spec (s : FS) (f k : Nat) (hf : f < 256) (hk : ChainLen s (dir s f) k) :
    ((f = 255 ∨ dir s f = 255) → ∀ fuel, last_sector fuel s f = some 255) ∧
    (¬ (f = 255 ∨ dir s f = 255) →
      ∃ r, (∀ fuel, 255 ≤ fuel → last_sector fuel s f = some r) ∧ InChain s f r ∧
        fat s r = 255 ∧ r ≠ 255 ∧ ∀ c, InChain s f c → fat s c = 255 → c = r) := by
  have hfm : f % 256 = f := Nat.mod_eq_of_lt hf
  constructor
  · intro h fuel
    rcases h with h | h
    · simp [last_sector, h]
    · by_cases h1 : f % 256 = 255
      · simp [last_sector, h1]
      · simp [last_sector, h1, h]
  · intro h
    have h1 : f ≠ 255 := fun e => h (Or.inl e)
    have h2 : dir s f ≠ 255 := fun e => h (Or.inr e)
    cases k with
    | zero => exact absurd ((ChainLen_zero_iff _ _).1 hk) h2
    | succ k =>
      refine ⟨(fat s)^[k] (dir s f),
        fun fuel hfu => last_sector_eq s f k (by omega) hk fuel hfu,
        inChain_of_lt s f (k + 1) k hk (by omega), ?_, hk.2 k (by omega), fun c hc hfc => ?_⟩
      · have := hk.1
        rwa [Function.iterate_succ_apply'] at this
      · obtain ⟨j, hj, hjc⟩ := inChain_lt s f (k + 1) c hk hc
        have hnext : (fat s)^[j + 1] (dir s f) = 255 := by
          rw [Function.iterate_succ_apply', hjc, hfc]
        have hjk : j = k := by
          rcases Nat.lt_or_ge (j + 1) (k + 1) with hlt | hge
          · exact absurd hnext (hk.2 (j + 1) hlt)
          · omega
        rw [← hjc, hjk]

/-- C17 on the disk whose file 0 owns sectors 0..254. -/
theorem last_sector_spec_witness :
    0 < 256 ∧ ChainLen full_disk (dir full_disk 0) 255 ∧
    ((0 = 255 ∨ dir full_disk 0 = 255) → ∀ fuel, last_sector fuel full_disk 0 = some 255) ∧
    (¬ (0 = 255 ∨ dir full_disk 0 = 255) →
      ∃ r, (∀ fuel, 255 ≤ fuel → last_sector fuel full_disk 0 = some r) ∧
        InChain full_disk 0 r ∧ fat full_disk r = 255 ∧ r ≠ 255 ∧
        ∀ c, InChain full_disk 0 c → fat full_disk c = 255 → c = r) :=
  ⟨by decide, chain_full_disk, last_sector_spec full_disk 0 255 (by decide) chain_full_disk⟩

/-- C19: whenever `find_free_sector()` returns, on any state and with any
fuel, the value is 0 and so never the sentinel 255: the 8-bit maximum starts
at 255 (from -1), no value returned by `last_sector` is above 255, and
255 + 1 is 0 in 8 bits. -/
theorem find_free_sector_returns_zero (s : FS) (fuel v : Nat)
    (h : find_free_sector fuel s = some v) :
    v = 0 ∧ v ≠ 255 ∧ ((-1 : Int) % 256).toNat = 255 ∧
    (∀ n start ls, last_sector n s start = some ls → ¬ ls > 255) ∧ (255 + 1) % 256 = 0 := by
  have hv := find_free_sector_val s fuel v h
  refine ⟨hv, by omega, neg_one_u8, fun n start ls hls => ?_, rfl⟩
  have := last_sector_lt s n start ls hls
  omega

/-- C19 on the state in which file 0 owns sector 0. -/
theorem find_free_sector_returns_zero_witness :
    find_free_sector 256 one_sector = some 0 ∧
    (0 = 0 ∧ 0 ≠ 255 ∧ ((-1 : Int) % 256).toNat = 255 ∧
    (∀ n start ls, last_sector n one_sector start = some ls → ¬ ls > 255) ∧
    (255 + 1) % 256 = 0) :=
  ⟨find_free_sector_some _ WellFormed_one_sector.finite WellFormed_one_sector.reserved
      256 (le_refl _),
    find_free_sector_returns_zero one_sector 256 0
      (find_free_sector_some _ WellFormed_one_sector.finite WellFormed_one_sector.reserved
        256 (le_refl _))⟩

/-- C20: when every chain is finite and `RAM_Directory[255] == 255`, every
call of `last_sector` returns, and there is a first index `i <= 255` at which
`last_sector(RAM_Directory[i])` is 255; the loop of `find_free_sector` runs
through the indices before `i` and returns in round `i`: it returns with
`i + 1` rounds of fuel and not with fewer, so `find_free_sector()` returns. -/
theorem find_free_sector_terminates (s : FS)
    (hfin : ∀ f, f < 256 → ∃ k, ChainLen s (dir s f) k) (hres : dir s 255 = 255) :
    (∀ start, ∃ r, ∀ n, 255 ≤ n → last_sector n s start = some r) ∧
    ∃ i, i ≤ 255 ∧ (∀ n, 255 ≤ n → last_sector n s (dir s i) = some 255) ∧
      (∀ j, j < i → ∃ r, r ≠ 255 ∧ ∀ n, 255 ≤ n → last_sector n s (dir s j) = some r) ∧
      (∀ n fuel, 255 ≤ n → i < fuel → find_free_sector_loop n fuel s 0 255 = some 0) ∧
      (∀ n fuel, 255 ≤ n → fuel ≤ i → find_free_sector_loop n fuel s 0 255 = none) ∧
      ∀ fuel, 256 ≤ fuel → find_free_sector fuel s = some 0 := by
  have hall : ∀ start, ∃ r, r < 256 ∧ ∀ n, 255 ≤ n → last_sector n s start = some r := by
    intro start
    obtain ⟨k, hk⟩ := hfin (start % 256) (Nat.mod_lt _ (by decide))
    rw [dir_mod] at hk
    exact last_sector_some s start k hk
  have hex : ∃ i, last_sector 255 s (dir s i) = some 255 :=
    ⟨255, by simp [last_sector, hres]⟩
  have hsame : ∀ start n, 255 ≤ n → last_sector n s start = last_sector 255 s start := by
    intro start n hn
    obtain ⟨r, _, hr⟩ := hall start
    rw [hr n hn, hr 255 (le_refl _)]
  have hstop := Nat.find_spec hex
  have hle : Nat.find hex ≤ 255 := Nat.find_min' hex (by simp [last_sector, hres])
  have hgo : ∀ j, j < Nat.find hex → ∃ r, r ≠ 255 ∧ last_sector 255 s (dir s j) = some r := by
    intro j hj
    obtain ⟨r, _, hr⟩ := hall (dir s j)
    refine ⟨r, fun e => ?_, hr 255 (le_refl _)⟩
    exact Nat.find_min hex hj (by rw [hr 255 (le_refl _), e])
  refine ⟨fun start => ?_, Nat.find hex, hle, fun n hn => ?_, fun j hj => ?_,
    fun n fuel hn hf => ?_, fun n fuel hn hf => ?_,
    fun fuel hf => find_free_sector_some s hfin hres fuel hf⟩
  · obtain ⟨r, _, hr⟩ := hall start
    exact ⟨r, hr⟩
  · rw [hsame _ n hn]; exact hstop
  · obtain ⟨r, hr, hls⟩ := hgo j hj
    exact ⟨r, hr, fun n hn => by rw [hsame _ n hn]; exact hls⟩
  · refine (find_free_sector_loop_first s n _ hle (by rw [hsame _ n hn]; exact hstop)
      (fun j hj => ?_) (Nat.find hex) 0 fuel (by omega)).1 hf
    obtain ⟨r, hr, hls⟩ := hgo j hj
    exact ⟨r, hr, by rw [hsame _ n hn]; exact hls⟩
  · refine (find_free_sector_loop_first s n _ hle (by rw [hsame _ n hn]; exact hstop)
      (fun j hj => ?_) (Nat.find hex) 0 fuel (by omega)).2 hf
    obtain ⟨r, hr, hls⟩ := hgo j hj
    exact ⟨r, hr, by rw [hsame _ n hn]; exact hls⟩

/-- C13: with a driver that records its calls, `eDisk_WriteSector(buf, n)`
returns 0 exactly when the calls for all 128 words succeed, and then the
calls made are those for words 0..127 in order; if the call for word `w` is
the first to fail, it returns 1 and the calls made are those for words 0..w
and no other: the words before `w` stay written and no call follows. -/
theorem eDisk_WriteSector_spec (res : List (Nat × Nat) → Nat → Nat → Nat) (buf : Nat → Nat)
    (n : Nat) :
    ((eDisk_WriteSector (Flash_Write_rec res) buf n []).2 = 0 ↔
      ∀ w, w < 128 → eDisk_result res buf n w = 0) ∧
    ((∀ w, w < 128 → eDisk_result res buf n w = 0) →
      eDisk_WriteSector (Flash_Write_rec res) buf n [] = (eDisk_calls buf n 128, 0)) ∧
    (∀ w, w < 128 → eDisk_result res buf n w ≠ 0 →
      (∀ v, v < w → eDisk_result res buf n v = 0) →
      eDisk_WriteSector (Flash_Write_rec res) buf n [] = (eDisk_calls buf n (w + 1), 1)) := by
  have h := eDisk_WriteSector_rec res buf n
  refine ⟨⟨fun h0 => ?_, fun hall => by rw [h.1 hall]⟩, h.1, h.2⟩
  by_contra hno
  obtain ⟨w, hw, hbad, hgood⟩ := eDisk_first_fail res buf n hno
  rw [h.2 w hw hbad hgood] at h0
  exact Nat.one_ne_zero h0

/-- C18: for a sector address `n` in 0..255 and `w` in 0..127, when the calls
for the words before `w` succeed, the `w`-th `Flash_Write` issued by
`eDisk_WriteSector(buf, n)` has byte address
`Disk_Start_Address + n*512 + 4*w` and carries the word
`buf[4w] + buf[4w+1]*2^8 + buf[4w+2]*2^16 + buf[4w+3]*2^24`, whose bits
8j..8j+7 are the byte at offset `j`. -/
theorem eDisk_WriteSector_call (res : List (Nat × Nat) → Nat → Nat → Nat) (buf : Nat → Nat)
    (n w : Nat) (hn : n < 256) (hw : w < 128)
    (hissued : ∀ v, v < w → eDisk_result res buf n v = 0) :
    (eDisk_WriteSector (Flash_Write_rec res) buf n []).1[w]? =
      some (Disk_Start_Address + n * 512 + 4 * w,
        buf (4 * w) % 256 + buf (4 * w + 1) % 256 * 2 ^ 8 + buf (4 * w + 2) % 256 * 2 ^ 16 +
          buf (4 * w + 3) % 256 * 2 ^ 24) ∧
    ∀ j, j < 4 →
      ((buf (4 * w) % 256 + buf (4 * w + 1) % 256 * 2 ^ 8 + buf (4 * w + 2) % 256 * 2 ^ 16 +
          buf (4 * w + 3) % 256 * 2 ^ 24) >>> (8 * j)) % 256 = buf (4 * w + j) % 256 := by
  have hcall : eDisk_call buf n w = (Disk_Start_Address + n * 512 + 4 * w,
      buf (4 * w) % 256 + buf (4 * w + 1) % 256 * 2 ^ 8 + buf (4 * w + 2) % 256 * 2 ^ 16 +
        buf (4 * w + 3) % 256 * 2 ^ 24) := by
    unfold eDisk_call
    rw [eDisk_WriteSector_word_eq]
    congr 1
    unfold Disk_Start_Address
    omega
  constructor
  · rw [← hcall]
    by_cases hall : ∀ v, v < 128 → eDisk_result res buf n v = 0
    · rw [(eDisk_WriteSector_rec res buf n).1 hall]
      exact eDisk_calls_get buf n 128 w hw
    · obtain ⟨w1, hw1, hbad, hgood⟩ := eDisk_first_fail res buf n hall
      rw [(eDisk_WriteSector_rec res buf n).2 w1 hw1 hbad hgood]
      refine eDisk_calls_get buf n (w1 + 1) w ?_
      rcases Nat.lt_or_ge w1 w with hlt | hge
      · exact absurd (hissued w1 hlt) hbad
      · omega
  · intro j hj
    have h0 : buf (4 * w) % 256 < 256 := Nat.mod_lt _ (by decide)
    have h1 : buf (4 * w + 1) % 256 < 256 := Nat.mod_lt _ (by decide)
    have h2 : buf (4 * w + 2) % 256 < 256 := Nat.mod_lt _ (by decide)
    have h3 : buf (4 * w + 3) % 256 < 256 := Nat.mod_lt _ (by decide)
    rw [Nat.shiftRight_eq_div_pow]
    interval_cases j
    · simp only [Nat.mul_zero, Nat.pow_zero, Nat.div_one, Nat.add_zero]; omega
    · norm_num; omega
    · norm_num; omega
    · norm_num; omega

/-- C18 for the buffer `ramp`, sector 0, word 1, every write succeeding. -/
theorem eDisk_WriteSector_call_witness :
    0 < 256 ∧ 1 < 128 ∧
    (∀ v, v < 1 → eDisk_result (fun _ _ _ => 0) ramp 0 v = 0) ∧
    ((eDisk_WriteSector (Flash_Write_rec (fun _ _ _ => 0)) ramp 0 []).1[1]? =
      some (Disk_Start_Address + 0 * 512 + 4 * 1,
        ramp (4 * 1) % 256 + ramp (4 * 1 + 1) % 256 * 2 ^ 8 + ramp (4 * 1 + 2) % 256 * 2 ^ 16 +
          ramp (4 * 1 + 3) % 256 * 2 ^ 24) ∧
    ∀ j, j < 4 →
      ((ramp (4 * 1) % 256 + ramp (4 * 1 + 1) % 256 * 2 ^ 8 + ramp (4 * 1 + 2) % 256 * 2 ^ 16 +
          ramp (4 * 1 + 3) % 256 * 2 ^ 24) >>> (8 * j)) % 256 = ramp (4 * 1 + j) % 256) :=
  ⟨by decide, by decide, fun _ _ => rfl,
    eDisk_WriteSector_call (fun _ _ _ => 0) ramp 0 1 (by decide) (by decide) (fun _ _ => rfl)⟩

/-- C12 (the code departs from the claim): whatever `Flash_Erase` answers,
`OS_File_Format()` calls it on the 129 addresses `0x20000 + 1024*k` for `k`
in 0..128; the last one, `0x40000`, is the first address after the disk
region `[0x20000, 0x40000)`. -/
theorem OS_File_Format_erases (res : List Nat → Nat → Nat) (extra : Nat) :
    OS_File_Format (Flash_Erase_rec res) (130 + extra) [] =
      some ((List.range 129).map (fun k => 0x20000 + 1024 * k)) ∧
    ((List.range 129).map (fun k => 0x20000 + 1024 * k)).length = 129 ∧
    0x40000 ∈ (List.range 129).map (fun k => 0x20000 + 1024 * k) ∧
    ¬ 0x40000 < 0x20000 + 128 * 1024 := by
  refine ⟨?_, by simp, ?_, by decide⟩
  · have := OS_File_Format_loop_rec res 129 0 (130 + extra) [] (by omega) (by omega)
    rw [List.range_eq_range']
    simpa [OS_File_Format] using this
  · exact List.mem_map.2 ⟨128, by simp, by decide⟩

/-- C11 (the code departs from the claim): after `OS_FS_Init`, with zero
bytes behind the tables and every write succeeding, `OS_File_Flush()` writes
`0xFFFFFFFF` as word 0 of sector 255 (bytes 0..3, from `RAM_Directory[0..3]`)
but `0` as word 64 (bytes 256..259), where `RAM_FAT[0..3]` are all 255: for
`i >= 256` the loop reads `RAM_FAT[i + j]`, past the end of the table, so
these words are the same whatever the tables hold. -/
theorem OS_File_Flush_fat_half :
    (OS_File_Flush (Flash_Write_rec (fun _ _ _ => 0)) (OS_FS_Init RAM_zero)
      (fun _ => 0) (fun _ => 0) 0 []).1[0]? = some (Disk_Start_Address + 255 * 512, 0xFFFFFFFF) ∧
    (OS_File_Flush (Flash_Write_rec (fun _ _ _ => 0)) (OS_FS_Init RAM_zero)
      (fun _ => 0) (fun _ => 0) 0 []).1[64]? = some (Disk_Start_Address + 255 * 512 + 256, 0) ∧
    (∀ k, k < 4 → fat (OS_FS_Init RAM_zero) k = 255) ∧
    ∀ (s t : FS) (pastDir pastFat : Nat → Nat) (i : Nat), 256 ≤ i →
      OS_File_Flush_word s pastDir pastFat i 4 = OS_File_Flush_word t pastDir pastFat i 4 := by
  refine ⟨by decide!, by decide!, fun k _ => fat_OS_FS_Init _ k, fun s t pastDir pastFat i hi => ?_⟩
  have h1 : ¬ i < 256 := by omega
  have h2 : ∀ j, ¬ i + j < 256 := fun j => by omega
  simp [OS_File_Flush_word, wide_read, h1, h2]

/-- C14 (the code departs from the claim): when the first `Flash_Write`
reports a failure, `OS_File_Flush()` returns 1, not 255; when every write
succeeds the loop ends without a `return`, so the caller gets what the return
register holds, for instance 7, not 0. -/
theorem OS_File_Flush_result :
    OS_File_Flush (Flash_Write_rec (fun _ _ _ => 1)) (OS_FS_Init RAM_zero)
      (fun _ => 0) (fun _ => 0) 0 [] = ([(Disk_Start_Address + 255 * 512, 0xFFFFFFFF)], 1) ∧
    (OS_File_Flush (Flash_Write_rec (fun _ _ _ => 0)) (OS_FS_Init RAM_zero)
      (fun _ => 0) (fun _ => 0) 7 []).2 = 7 := by
  constructor <;> decide!

/-- C16: the invariant (every chain finite, no sector on two chains or twice
on one chain, every sector on no chain has `RAM_FAT` entry 255,
`RAM_Directory[255] == RAM_FAT[255] == 255`) is kept by `append_fat`: for a
file number `num` in 0..254 and a sector `n` in 0..254 that lies on no chain,
`append_fat(num, n)` returns and the state it leaves satisfies the invariant
again; the state made by `OS_FS_Init` satisfies it. -/
theorem append_fat_invariant (s : FS) (num n : Nat) (hinv : Invariant s)
    (hnum : num < 255) (hn : n < 255) (hfree : ∀ f, f < 256 → ¬ InChain s f n) :
    (∃ t, (∀ fuel, 255 ≤ fuel → append_fat fuel s num n = some t) ∧ Invariant t) ∧
    ∀ s0, Invariant (OS_FS_Init s0) :=
  ⟨append_fat_keeps_invariant s num n hinv hnum hn hfree, Invariant_OS_FS_Init⟩

/-- C16 for file 0 owning sector 0, to which the free sector 1 is appended. -/
theorem append_fat_invariant_witness :
    Invariant one_sector ∧ 0 < 255 ∧ 1 < 255 ∧ (∀ f, f < 256 → ¬ InChain one_sector f 1) ∧
    ((∃ t, (∀ fuel, 255 ≤ fuel → append_fat fuel one_sector 0 1 = some t) ∧ Invariant t) ∧
    ∀ s0, Invariant (OS_FS_Init s0)) :=
  ⟨Invariant_one_sector, by decide, by decide,
    fun f _ h => absurd (inChain_one_sector f 1 h).2 (by decide),
    append_fat_invariant one_sector 0 1 Invariant_one_sector (by decide) (by decide)
      (fun f _ h => absurd (inChain_one_sector f 1 h).2 (by decide))⟩

/-- C20 on the state in which file 0 owns sector 0. -/
theorem find_free_sector_terminates_witness :
    (∀ f, f < 256 → ∃ k, ChainLen one_sector (dir one_sector f) k) ∧
    dir one_sector 255 = 255 ∧
    ((∀ start, ∃ r, ∀ n, 255 ≤ n → last_sector n one_sector start = some r) ∧
    ∃ i, i ≤ 255 ∧ (∀ n, 255 ≤ n → last_sector n one_sector (dir one_sector i) = some 255) ∧
      (∀ j, j < i →
        ∃ r, r ≠ 255 ∧ ∀ n, 255 ≤ n → last_sector n one_sector (dir one_sector j) = some r) ∧
      (∀ n fuel, 255 ≤ n → i < fuel → find_free_sector_loop n fuel one_sector 0 255 = some 0) ∧
      (∀ n fuel, 255 ≤ n → fuel ≤ i → find_free_sector_loop n fuel one_sector 0 255 = none) ∧
      ∀ fuel, 256 ≤ fuel → find_free_sector fuel one_sector = some 0) :=
  ⟨WellFormed_one_sector.finite, WellFormed_one_sector.reserved,
    find_free_sector_terminates one_sector WellFormed_one_sector.finite
      WellFormed_one_sector.reserved⟩

end OSFS
